import Mathlib

/-!
Shallow embedding of the C memory allocator (`malloc`, `free`, `calloc`,
`realloc`, `get_free_block` from the repository's allocator source) together
with proofs checking the natural-language specification against it.

Modelling conventions:
* `size_t` values are `Nat`s; every arithmetic operation the C code performs
  on them is reduced `% 2^64` exactly where C wraps.
* Addresses are byte addresses (`Nat`).  Headers are 32 bytes
  (`union header`: the 24-byte struct padded by the `char ALIGN[16]` member
  to a multiple of 16).
* The header records that physically precede every payload are kept in an
  association list from header address to header record; payload bytes are a
  function `Nat → Nat`.
* `sbrk` is modelled by a state with a current break `brk`, the data-segment
  start `heapBase` and an OS-imposed ceiling `brkLimit`: a call moves the
  break if the result stays inside `[heapBase, brkLimit]` and otherwise
  returns the failure value `(void * ) -1` (here `none`) leaving the break
  unchanged.  The C code converts `size_t` expressions to `sbrk`'s signed
  `intptr_t` argument; `toIntptr` performs that two's-complement
  reinterpretation.
* The unbounded `while` loops of the C code become fueled recursions; the
  fuel `mem.length + 1` dominates every chain the allocator can build, which
  the well-formedness invariant below makes precise.
* Reading a header the allocator never wrote (freeing a foreign pointer) is
  caller undefined behaviour per the source comments; the model gives those
  reads the benign result "no effect" and every theorem below only ever
  relies on the model at genuine capabilities.
-/

namespace MemAlloc

/-- Modulus of 64-bit `size_t` arithmetic. -/
def W : Nat := 2 ^ 64

/-- Boundary above which a `size_t` value reinterpreted as the signed
`intptr_t` argument of `sbrk` becomes negative. -/
def HALF : Nat := 2 ^ 63

/-- Byte footprint of `union header`: `{size_t; unsigned; union header *}`
padded by `char ALIGN[16]` to 32 bytes. -/
def sizeofHeader : Nat := 32

/-- The `s` struct inside `union header`: payload size in bytes, the
`is_free` flag, and the `next` pointer of the singly linked chain
(`none` models `NULL`). -/
structure Header where
  size : Nat
  is_free : Bool
  next : Option Nat
deriving DecidableEq, Repr

/-- The header store: association list from header address to header
record. -/
abbrev Mem := List (Nat × Header)

/-- Read the header stored at address `a` (dereferencing a `header_t *`). -/
def memGet : Mem → Nat → Option Header
  | [], _ => none
  | (b, h) :: m, a => if b = a then some h else memGet m a

/-- Write the header at address `a`, replacing the record already there or
materialising a fresh one (a store through a `header_t *`). -/
def memSet : Mem → Nat → Header → Mem
  | [], a, h => [(a, h)]
  | (b, g) :: m, a, h => if b = a then (a, h) :: m else (b, g) :: memSet m a h

/-- Remove the header at address `a`: used when the trailing block's memory
is returned to the OS and the record ceases to exist. -/
def memErase : Mem → Nat → Mem
  | [], _ => []
  | (b, g) :: m, a => if b = a then m else (b, g) :: memErase m a

/-- Process-wide allocator state: the header store, the heap's payload
bytes, the global `head`/`tail` chain pointers, the current program break
and the fixed OS parameters (segment start and growth ceiling). -/
@[ext]
structure AState where
  mem : Mem
  data : Nat → Nat
  head : Option Nat
  tail : Option Nat
  brk : Nat
  heapBase : Nat
  brkLimit : Nat

/-- Reinterpret a `size_t` value as the signed `intptr_t` argument passed to
`sbrk` (two's complement). -/
def toIntptr (v : Nat) : Int :=
  if v % W < HALF then ((v % W : Nat) : Int) else ((v % W : Nat) : Int) - (W : Int)

/-- The `sbrk` call: returns the previous break and moves it by `d` when the
result stays within the OS bounds, otherwise returns the failure value
(`none`, i.e. `(void * ) -1`) without moving the break. -/
def sbrkCall (s : AState) (d : Int) : Option Nat × AState :=
  let nb : Int := (s.brk : Int) + d
  if (s.heapBase : Int) ≤ nb ∧ nb ≤ (s.brkLimit : Int) then
    (some s.brk, { s with brk := nb.toNat })
  else
    (none, s)

/-- Loop body of `get_free_block`, fueled: follow `next` from `cur` until a
header with `is_free && size >= requested` is found. -/
def gfbAux (m : Mem) (size : Nat) : Nat → Option Nat → Option Nat
  | 0, _ => none
  | _, none => none
  | fuel + 1, some a =>
    match memGet m a with
    | none => none
    | some h =>
      if h.is_free ∧ size ≤ h.size then some a
      else gfbAux m size fuel h.next

/-- `get_free_block(size)`: linear first-fit scan of the chain from `head`
for a free header whose stored size accommodates `size`. -/
def get_free_block (s : AState) (size : Nat) : Option Nat :=
  gfbAux s.mem size (s.mem.length + 1) s.head

/-- `malloc(size)`: return `NULL` for a zero request; otherwise reuse the
first fitting free block (marking it used), or grow the heap by
`sizeof(header_t) + size` (as `size_t`, i.e. mod `2^64`) via `sbrk`,
initialise the new header and append it at the tail. -/
def malloc (s : AState) (size : Nat) : Option Nat × AState :=
  if size = 0 then (none, s)
  else
    match get_free_block s size with
    | some a =>
      match memGet s.mem a with
      | none => (none, s)
      | some h =>
        (some (a + sizeofHeader),
          { s with mem := memSet s.mem a { h with is_free := false } })
    | none =>
      let total : Nat := (sizeofHeader + size) % W
      match sbrkCall s (toIntptr total) with
      | (none, _) => (none, s)
      | (some blockAddr, s1) =>
        let m1 := memSet s1.mem blockAddr { size := size, is_free := false, next := none }
        let head1 := if s1.head = none then some blockAddr else s1.head
        let m2 :=
          match s1.tail with
          | none => m1
          | some t =>
            match memGet m1 t with
            | none => m1
            | some th => memSet m1 t { th with next := some blockAddr }
        (some (blockAddr + sizeofHeader),
          { s1 with mem := m2, head := head1, tail := some blockAddr })

/-- Loop of `free`'s tail repair, fueled: walk from `cur` looking for the
node whose `next` equals the current `tail`; null its `next` and make it the
new tail, then keep following the (now mutated) `next` fields exactly as the
C loop does. -/
def tailRepair : Mem → Option Nat → Option Nat → Nat → Mem × Option Nat
  | m, t, _, 0 => (m, t)
  | m, t, none, _ => (m, t)
  | m, t, some a, fuel + 1 =>
    match memGet m a with
    | none => (m, t)
    | some h =>
      if h.next = t then
        tailRepair (memSet m a { h with next := none }) (some a) none fuel
      else
        tailRepair m t h.next fuel

/-- `free(block)`: nothing for `NULL`; otherwise read the header one
`header_t` before the payload.  If the payload's end is the current program
break, unlink the trailing block (resetting `head`/`tail` for a singleton
chain, else repairing the tail by a linear walk) and shrink the heap by
`sizeof(header_t) + size`; otherwise just mark the block free. -/
def free (s : AState) (block : Option Nat) : AState :=
  match block with
  | none => s
  | some b =>
    match memGet s.mem (b - sizeofHeader) with
    | none => s
    | some h =>
      let programbreak := s.brk
      if (b + h.size) % W = programbreak then
        let s' :=
          if s.head = s.tail then { s with head := none, tail := none }
          else
            let r := tailRepair s.mem s.tail s.head (s.mem.length + 1)
            { s with mem := r.1, tail := r.2 }
        let s'' := { s' with mem := memErase s'.mem (b - sizeofHeader) }
        (sbrkCall s'' (toIntptr ((W - (h.size + sizeofHeader) % W) % W))).2
      else
        { s with mem := memSet s.mem (b - sizeofHeader) { h with is_free := true } }

/-- Byte-level `memset(a, v, n)` on the payload data. -/
def memsetBytes (d : Nat → Nat) (a v n : Nat) : Nat → Nat :=
  fun x => if a ≤ x ∧ x < a + n then v else d x

/-- Byte-level `memcpy(dst, src, n)` on the payload data (reads the
pre-call contents, as `memcpy` on the non-overlapping regions the allocator
hands it). -/
def memcpyBytes (d : Nat → Nat) (dst src n : Nat) : Nat → Nat :=
  fun x => if dst ≤ x ∧ x < dst + n then d (src + (x - dst)) else d x

/-- `calloc(num, nsize)`: `NULL` on a zero count or element size, `NULL` on
`size_t` overflow of `num * nsize` (detected by the division check),
otherwise `malloc` the product and zero-fill it. -/
def calloc (s : AState) (num nsize : Nat) : Option Nat × AState :=
  if num = 0 ∨ nsize = 0 then (none, s)
  else
    let size : Nat := (num * nsize) % W
    if nsize ≠ size / num then (none, s)
    else
      match malloc s size with
      | (none, s1) => (none, s1)
      | (some b, s1) => (some b, { s1 with data := memsetBytes s1.data b 0 size })

/-- `realloc(block, size)`: delegate to `malloc` when `block` is `NULL` or
`size` is zero; return `block` unchanged when its stored size already
accommodates `size`; otherwise `malloc` a new block, copy the old stored
size's worth of bytes, `free` the old block and return the new one. -/
def realloc (s : AState) (block : Option Nat) (size : Nat) : Option Nat × AState :=
  match block with
  | none => malloc s size
  | some b =>
    if size = 0 then malloc s size
    else
      match memGet s.mem (b - sizeofHeader) with
      | none => (none, s)
      | some h =>
        if size ≤ h.size then (some b, s)
        else
          match malloc s size with
          | (none, s1) => (none, s1)
          | (some ret, s1) =>
            let n : Nat :=
              match memGet s1.mem (b - sizeofHeader) with
              | some h1 => h1.size
              | none => 0
            let s2 := { s1 with data := memcpyBytes s1.data ret b n }
            (some ret, free s2 (some b))

/-- The freshly started process: empty chain, break at the segment start. -/
def initState (base limit : Nat) : AState :=
  { mem := [], data := fun _ => 0, head := none, tail := none,
    brk := base, heapBase := base, brkLimit := limit }

/-- Key list of the header store. -/
def keys (m : Mem) : List Nat := m.map Prod.fst

/-- Bool test for the scan condition `is_free && size >= requested` at a
given address. -/
def fits (m : Mem) (size a : Nat) : Bool :=
  match memGet m a with
  | some h => h.is_free && decide (size ≤ h.size)
  | none => false

/-- The chain of headers reachable from a pointer: `Chain m p L` says that
following `next` from `p` visits exactly the addresses in `L` and ends at
`NULL`. -/
inductive Chain (m : Mem) : Option Nat → List Nat → Prop
  | nil : Chain m none []
  | cons {a : Nat} {h : Header} {L : List Nat} :
      memGet m a = some h → Chain m h.next L → Chain m (some a) (a :: L)

/-- Contiguity of the chain layout: starting at address `a`, the listed
blocks tile the heap back to back and end exactly at `b`. -/
def contigB (m : Mem) : Nat → List Nat → Nat → Bool
  | a, [], b => a == b
  | a, x :: xs, b =>
    x == a &&
      match memGet m x with
      | none => false
      | some h => contigB m (x + sizeofHeader + h.size) xs b

/-- Well-formedness of an allocator state with explicit chain list `L`:
the chain from `head` is `L`, the store's keys are exactly `L` (no stale
headers, no duplicates), `tail` is the last chain element, the blocks tile
`[heapBase, brk)` contiguously, and the break respects the OS bounds, the
ceiling sitting below `2^63` (the OS never hands out half the address
space). -/
def WFc (s : AState) (L : List Nat) : Prop :=
  Chain s.mem s.head L ∧
  (keys s.mem).Nodup ∧
  keys s.mem = L ∧
  s.tail = L.getLast? ∧
  contigB s.mem s.heapBase L s.brk = true ∧
  s.brk ≤ s.brkLimit ∧
  s.brkLimit < HALF

/-- Well-formedness of an allocator state. -/
def WF (s : AState) : Prop := ∃ L, WFc s L

/-- State reached by `malloc`'s heap-growth path: header written at the old
break, chain head/tail links updated, break moved to `nb`. -/
def mallocGrowState (s : AState) (size nb : Nat) : AState :=
  let m1 := memSet s.mem s.brk { size := size, is_free := false, next := none }
  let m2 :=
    match s.tail with
    | none => m1
    | some t =>
      match memGet m1 t with
      | none => m1
      | some th => memSet m1 t { th with next := some s.brk }
  { s with mem := m2,
           head := if s.head = none then some s.brk else s.head,
           tail := some s.brk,
           brk := nb }

/-- States reachable from a fresh heap through allocator calls whose sizes
keep `sizeof(header) + request` below `2^63`, so that the quantity handed to
`sbrk` cannot wrap the `size_t`/`intptr_t` arithmetic. -/
inductive ReachableR : AState → Prop where
  | init : ∀ base limit, base ≤ limit → limit < HALF → ReachableR (initState base limit)
  | malloc_step : ∀ s size, ReachableR s → sizeofHeader + size < HALF →
      ReachableR (malloc s size).2
  | free_step : ∀ s b, ReachableR s → ReachableR (free s b)
  | calloc_step : ∀ s num nsize, ReachableR s →
      sizeofHeader + (num * nsize) % W < HALF → ReachableR (calloc s num nsize).2
  | realloc_step : ∀ s b size, ReachableR s → sizeofHeader + size < HALF →
      ReachableR (realloc s b size).2

/-- Fixed live 100-byte block used by several witnesses. -/
def hdr100 : Header := { size := 100, is_free := false, next := none }

/-- Concrete well-formed state: one live 100-byte block at 1000, break at
1132, ample OS ceiling. -/
def sLive : AState :=
  { mem := [(1000, hdr100)], data := fun _ => 0, head := some 1000,
    tail := some 1000, brk := 1132, heapBase := 1000, brkLimit := 1400 }

/-- Concrete state like `sLive` but with an OS ceiling so tight that any
heap growth fails. -/
def sTight : AState :=
  { mem := [(1000, hdr100)], data := fun _ => 0, head := some 1000,
    tail := some 1000, brk := 1132, heapBase := 1000, brkLimit := 1140 }

/-- State reached from a fresh heap by `malloc(100)`, `malloc(16)`, then
`free` of the first block: the 100-byte block at 1000 is marked free (its
payload end 1132 is not the break 1180), the 16-byte block remains live. -/
def c5s3 : AState :=
  free (malloc (malloc (initState 1000 2000) 100).2 16).2 (some 1032)

section MemLemmas

theorem memGet_memSet_self (m : Mem) (a : Nat) (h : Header) :
    memGet (memSet m a h) a = some h := by
  induction m with
  | nil => simp [memSet, memGet]
  | cons p m ih =>
    obtain ⟨b, g⟩ := p
    by_cases hb : b = a
    · subst hb; simp [memSet, memGet]
    · simp [memSet, memGet, hb, ih]

theorem memGet_memSet_ne (m : Mem) (a b : Nat) (h : Header) (hne : b ≠ a) :
    memGet (memSet m a h) b = memGet m b := by
  induction m with
  | nil => simp [memSet, memGet, Ne.symm hne]
  | cons p m ih =>
    obtain ⟨c, g⟩ := p
    by_cases hc : c = a
    · subst hc
      simp [memSet, memGet, Ne.symm hne]
    · simp only [memSet, if_neg hc, memGet]
      by_cases hcb : c = b <;> simp [hcb, ih]

theorem memSet_eq_of_memGet (m : Mem) (a : Nat) (h : Header)
    (hget : memGet m a = some h) : memSet m a h = m := by
  induction m with
  | nil => simp [memGet] at hget
  | cons p m ih =>
    obtain ⟨b, g⟩ := p
    by_cases hb : b = a
    · subst hb
      have hg : g = h := by simpa [memGet] using hget
      subst hg
      simp [memSet]
    · simp only [memGet, if_neg hb] at hget
      simp [memSet, hb, ih hget]

theorem memSet_memSet_self (m : Mem) (a : Nat) (h h' : Header) :
    memSet (memSet m a h) a h' = memSet m a h' := by
  induction m with
  | nil => simp [memSet]
  | cons p m ih =>
    obtain ⟨b, g⟩ := p
    by_cases hb : b = a
    · subst hb; simp [memSet]
    · simp [memSet, hb, ih]

theorem memErase_memSet_fresh (m : Mem) (a : Nat) (h : Header)
    (hget : memGet m a = none) : memErase (memSet m a h) a = m := by
  induction m with
  | nil => simp [memSet, memErase]
  | cons p m ih =>
    obtain ⟨b, g⟩ := p
    by_cases hb : b = a
    · subst hb; simp [memGet] at hget
    · simp only [memGet, if_neg hb] at hget
      simp [memSet, memErase, hb, ih hget]

theorem memGet_isSome_iff_mem_keys (m : Mem) (a : Nat) :
    (memGet m a).isSome ↔ a ∈ keys m := by
  induction m with
  | nil => simp [memGet, keys]
  | cons p m ih =>
    obtain ⟨b, g⟩ := p
    by_cases hb : b = a
    · subst hb; simp [memGet, keys]
    · simp [memGet, hb, keys, ih, Ne.symm hb]

theorem memGet_eq_none_iff (m : Mem) (a : Nat) :
    memGet m a = none ↔ a ∉ keys m := by
  rw [← memGet_isSome_iff_mem_keys]
  cases memGet m a <;> simp

theorem keys_memSet_mem (m : Mem) (a : Nat) (h : Header) (ha : a ∈ keys m) :
    keys (memSet m a h) = keys m := by
  induction m with
  | nil => simp [keys] at ha
  | cons p m ih =>
    obtain ⟨b, g⟩ := p
    by_cases hb : b = a
    · subst hb; simp [memSet, keys]
    · simp only [keys, List.map_cons, List.mem_cons] at ha
      rcases ha with ha | ha
      · exact absurd ha.symm hb
      · simp only [memSet, if_neg hb, keys, List.map_cons]
        exact congrArg (b :: ·) (ih ha)

theorem keys_memSet_fresh (m : Mem) (a : Nat) (h : Header) (ha : a ∉ keys m) :
    keys (memSet m a h) = keys m ++ [a] := by
  induction m with
  | nil => simp [memSet, keys]
  | cons p m ih =>
    obtain ⟨b, g⟩ := p
    simp only [keys, List.map_cons, List.mem_cons] at ha
    push_neg at ha
    simp only [memSet, if_neg (Ne.symm ha.1), keys, List.map_cons, List.cons_append]
    exact congrArg (b :: ·) (ih ha.2)

theorem keys_memErase (m : Mem) (a : Nat) :
    keys (memErase m a) = (keys m).erase a := by
  induction m with
  | nil => simp [memErase, keys]
  | cons p m ih =>
    obtain ⟨b, g⟩ := p
    by_cases hb : b = a
    · subst hb
      simp [memErase, keys, List.erase_cons_head]
    · simp [memErase, hb, keys, List.erase_cons, ih]
      exact ih

theorem memGet_memErase_ne (m : Mem) (a b : Nat) (hne : b ≠ a) :
    memGet (memErase m a) b = memGet m b := by
  induction m with
  | nil => simp [memErase]
  | cons p m ih =>
    obtain ⟨c, g⟩ := p
    by_cases hc : c = a
    · subst hc
      simp [memErase, memGet, Ne.symm hne]
    · simp only [memErase, if_neg hc, memGet]
      by_cases hcb : c = b <;> simp [hcb, ih]

theorem memGet_memErase_self (m : Mem) (a : Nat) (hnd : (keys m).Nodup) :
    memGet (memErase m a) a = none := by
  induction m with
  | nil => simp [memErase, memGet]
  | cons p m ih =>
    obtain ⟨c, g⟩ := p
    simp only [keys, List.map_cons, List.nodup_cons] at hnd
    by_cases hc : c = a
    · subst hc
      simp only [memErase, if_pos rfl]
      rw [memGet_eq_none_iff]
      exact hnd.1
    · simp [memErase, hc, memGet, ih hnd.2]

end MemLemmas

section ChainLemmas

theorem chain_head {m : Mem} {p : Option Nat} {L : List Nat} (h : Chain m p L) :
    p = L.head? := by
  cases h <;> rfl

theorem chain_cons_head {m : Mem} {p : Option Nat} {y : Nat} {ys : List Nat}
    (h : Chain m p (y :: ys)) : p = some y := by
  cases h; rfl

theorem chain_deterministic {m : Mem} {p : Option Nat} {L1 L2 : List Nat}
    (h1 : Chain m p L1) (h2 : Chain m p L2) : L1 = L2 := by
  induction h1 generalizing L2 with
  | nil => cases h2; rfl
  | cons hget hc ih =>
    cases h2 with
    | cons hget2 hc2 =>
      rw [hget] at hget2
      cases hget2
      exact congrArg _ (ih hc2)

theorem chain_mem_suffix {m : Mem} {p : Option Nat} {L : List Nat}
    (h : Chain m p L) {a : Nat} (ha : a ∈ L) :
    ∃ T, Chain m (some a) T ∧ T <:+ L := by
  induction h with
  | nil => cases ha
  | @cons x hx L' hget hc ih =>
    rcases List.mem_cons.mp ha with rfl | ha'
    · exact ⟨_, Chain.cons hget hc, List.suffix_refl _⟩
    · obtain ⟨T, hT, hsuf⟩ := ih ha'
      exact ⟨T, hT, hsuf.trans (List.suffix_cons x L')⟩

theorem chain_nodup {m : Mem} {p : Option Nat} {L : List Nat}
    (h : Chain m p L) : L.Nodup := by
  induction h with
  | nil => exact List.nodup_nil
  | @cons a ha L' hget hc ih =>
    refine List.nodup_cons.mpr ⟨?_, ih⟩
    intro hmem
    obtain ⟨T, hT, hsuf⟩ := chain_mem_suffix hc hmem
    have hdet : T = a :: L' := chain_deterministic hT (Chain.cons hget hc)
    have hlen : T.length ≤ L'.length := hsuf.length_le
    rw [hdet] at hlen
    simp at hlen

theorem gfbAux_chain {m : Mem} {size : Nat} :
    ∀ {L : List Nat} {p : Option Nat} {fuel : Nat}, Chain m p L → L.length < fuel →
      gfbAux m size fuel p = L.find? (fits m size) := by
  intro L
  induction L with
  | nil =>
    intro p fuel h hf
    cases h
    match fuel, hf with
    | fuel + 1, _ => rfl
  | cons a L ih =>
    intro p fuel h hf
    cases h with
    | cons hget hc =>
      rename_i ha
      match fuel, hf with
      | fuel + 1, hf =>
        simp only [gfbAux, hget]
        by_cases hfit : ha.is_free ∧ size ≤ ha.size
        · rw [if_pos hfit]
          have : fits m size a = true := by
            simp [fits, hget, hfit.1, hfit.2]
          rw [List.find?_cons_of_pos _ this]
        · rw [if_neg hfit]
          have : fits m size a = false := by
            simp only [fits, hget]
            rcases Decidable.not_and_iff_or_not.mp hfit with hh | hh
            · simp [hh]
            · simp [hh]
          rw [List.find?_cons_of_neg _ (by simp [this])]
          exact ih hc (by simpa using Nat.lt_of_succ_lt_succ hf)

theorem get_free_block_eq {s : AState} {L : List Nat} (size : Nat) (hw : WFc s L) :
    get_free_block s size = L.find? (fits s.mem size) := by
  obtain ⟨hc, hnd, hkeys, _⟩ := hw
  have hlen : L.length = s.mem.length := by
    rw [← hkeys]
    simp [keys]
  exact gfbAux_chain hc (by omega)

theorem tailRepair_spec {m : Mem} {p t : Nat} {hp : Header}
    (hget : memGet m p = some hp) :
    ∀ {L1 : List Nat} {q : Option Nat} {fuel : Nat},
      Chain m q (L1 ++ [p, t]) → (L1 ++ [p, t]).Nodup →
      (L1 ++ [p, t]).length < fuel →
      tailRepair m (some t) q fuel = (memSet m p { hp with next := none }, some p) := by
  intro L1
  induction L1 with
  | nil =>
    intro q fuel h hnd hf
    cases h with
    | cons hget' hc =>
      rename_i hp'
      rw [hget] at hget'
      cases hget'
      have hnext : hp.next = some t := chain_cons_head hc
      match fuel, hf with
      | fuel + 1, _ =>
        simp only [tailRepair, hget, hnext, if_pos rfl]
        match fuel with
        | 0 => rfl
        | fuel + 1 => rfl
  | cons x L1 ih =>
    intro q fuel h hnd hf
    cases h with
    | @cons _ hx _ hgetx hc =>
      have hnd' : (L1 ++ [p, t]).Nodup := (List.nodup_cons.mp hnd).2
      have hninfo : ∃ y, hx.next = some y ∧ y ≠ t := by
        cases hL1 : L1 with
        | nil =>
          rw [hL1] at hc hnd'
          simp only [List.nil_append] at hc hnd'
          refine ⟨p, chain_cons_head hc, ?_⟩
          simp only [List.nodup_cons, List.mem_cons, List.mem_singleton] at hnd'
          intro hpt
          exact hnd'.1 (Or.inl hpt)
        | cons z zs =>
          rw [hL1] at hc hnd'
          simp only [List.cons_append] at hc hnd'
          refine ⟨z, chain_cons_head hc, ?_⟩
          have hz : z ∉ zs ++ [p, t] := (List.nodup_cons.mp hnd').1
          intro hzt
          exact hz (by rw [hzt]; simp)
      obtain ⟨y, hy, hyt⟩ := hninfo
      match fuel, hf with
      | fuel + 1, hf =>
        simp only [tailRepair, hgetx, hy]
        rw [if_neg (fun hcontra => hyt (Option.some.inj hcontra))]
        exact ih (hy ▸ hc) hnd' (by simpa using Nat.lt_of_succ_lt_succ hf)

theorem chain_memSet_same_next {m : Mem} {a : Nat} {h : Header} (h' : Header)
    (hget : memGet m a = some h) (hnext : h'.next = h.next) :
    ∀ {p : Option Nat} {L : List Nat}, Chain m p L → Chain (memSet m a h') p L := by
  intro p L hc
  induction hc with
  | nil => exact Chain.nil
  | cons hgetx hcx ih =>
    rename_i x hx L'
    by_cases hxa : x = a
    · subst hxa
      rw [hget] at hgetx
      cases hgetx
      refine Chain.cons (memGet_memSet_self m x h') ?_
      rw [hnext]
      exact ih
    · exact Chain.cons (by rw [memGet_memSet_ne m a x h' hxa]; exact hgetx) ih

theorem chain_memSet_notmem {m : Mem} {a : Nat} {h' : Header} :
    ∀ {p : Option Nat} {L : List Nat}, a ∉ L → Chain m p L → Chain (memSet m a h') p L := by
  intro p L hna hc
  induction hc with
  | nil => exact Chain.nil
  | cons hgetx hcx ih =>
    rename_i x hx L'
    have hxa : x ≠ a := fun hh => hna (hh ▸ List.mem_cons_self x L')
    refine Chain.cons (by rw [memGet_memSet_ne m a x h' hxa]; exact hgetx) ?_
    exact ih (fun hmem => hna (List.mem_cons_of_mem x hmem))

theorem chain_memErase_notmem {m : Mem} {a : Nat} :
    ∀ {p : Option Nat} {L : List Nat}, a ∉ L → Chain m p L → Chain (memErase m a) p L := by
  intro p L hna hc
  induction hc with
  | nil => exact Chain.nil
  | cons hgetx hcx ih =>
    rename_i x hx L'
    have hxa : x ≠ a := fun hh => hna (hh ▸ List.mem_cons_self x L')
    refine Chain.cons (by rw [memGet_memErase_ne m a x hxa]; exact hgetx) ?_
    exact ih (fun hmem => hna (List.mem_cons_of_mem x hmem))

end ChainLemmas

section ContigLemmas

theorem contig_nil_iff {m : Mem} {a b : Nat} : contigB m a [] b = true ↔ a = b := by
  simp [contigB]

theorem contig_cons_iff {m : Mem} {a b x : Nat} {xs : List Nat} :
    contigB m a (x :: xs) b = true ↔
      x = a ∧ ∃ h, memGet m x = some h ∧
        contigB m (x + sizeofHeader + h.size) xs b = true := by
  cases hg : memGet m x with
  | none => simp [contigB, hg]
  | some h => simp [contigB, hg]

theorem contig_mono {m : Mem} :
    ∀ {L : List Nat} {a b : Nat}, contigB m a L b = true → a ≤ b := by
  intro L
  induction L with
  | nil =>
    intro a b h
    exact (contig_nil_iff.mp h).le
  | cons x xs ih =>
    intro a b h
    obtain ⟨rfl, hh, hget, hrest⟩ := contig_cons_iff.mp h
    have := ih hrest
    omega

theorem contig_mem_bounds {m : Mem} :
    ∀ {L : List Nat} {a b x : Nat}, contigB m a L b = true → x ∈ L →
      ∃ h, memGet m x = some h ∧ a ≤ x ∧ x + sizeofHeader + h.size ≤ b := by
  intro L
  induction L with
  | nil =>
    intro a b x _ hx
    cases hx
  | cons y ys ih =>
    intro a b x h hx
    obtain ⟨rfl, hh, hget, hrest⟩ := contig_cons_iff.mp h
    rcases List.mem_cons.mp hx with rfl | hx'
    · exact ⟨hh, hget, Nat.le_refl _, contig_mono hrest⟩
    · obtain ⟨g, hg, hle1, hle2⟩ := ih hrest hx'
      exact ⟨g, hg, by omega, hle2⟩

theorem contig_last_end {m : Mem} :
    ∀ {L : List Nat} {a b : Nat}, contigB m a L b = true → L ≠ [] →
      ∃ x h, L.getLast? = some x ∧ memGet m x = some h ∧
        x + sizeofHeader + h.size = b := by
  intro L
  induction L with
  | nil => intro a b _ hne; exact absurd rfl hne
  | cons y ys ih =>
    intro a b h _
    obtain ⟨rfl, hh, hget, hrest⟩ := contig_cons_iff.mp h
    cases ys with
    | nil =>
      exact ⟨y, hh, rfl, hget, contig_nil_iff.mp hrest⟩
    | cons z zs =>
      obtain ⟨x, g, hlast, hg, hend⟩ := ih hrest (by simp)
      refine ⟨x, g, ?_, hg, hend⟩
      rw [List.getLast?_cons_cons]
      exact hlast

theorem contig_end_eq_last {m : Mem} :
    ∀ {L : List Nat} {a b x : Nat} {h : Header}, contigB m a L b = true → x ∈ L →
      memGet m x = some h → x + sizeofHeader + h.size = b → L.getLast? = some x := by
  intro L
  induction L with
  | nil =>
    intro a b x h _ hx
    cases hx
  | cons y ys ih =>
    intro a b x h hcont hx hget hend
    obtain ⟨rfl, hh, hgety, hrest⟩ := contig_cons_iff.mp hcont
    rcases List.mem_cons.mp hx with rfl | hx'
    · rw [hget] at hgety
      cases hgety
      cases ys with
      | nil => rfl
      | cons z zs =>
        obtain ⟨rfl, hz, hgz, hrest'⟩ := contig_cons_iff.mp hrest
        have hm := contig_mono hrest'
        have h32 : 0 < sizeofHeader := by decide
        omega
    · cases ys with
      | nil => cases hx'
      | cons z zs =>
        have hlast := ih hrest hx' hget hend
        rw [List.getLast?_cons_cons]
        exact hlast

theorem contig_memSet_same_size {m : Mem} {a : Nat} {h : Header} (h' : Header)
    (hget : memGet m a = some h) (hsz : h'.size = h.size) :
    ∀ {L : List Nat} {c b : Nat}, contigB m c L b = true →
      contigB (memSet m a h') c L b = true := by
  intro L
  induction L with
  | nil =>
    intro c b hc
    rw [contig_nil_iff] at hc ⊢
    exact hc
  | cons x xs ih =>
    intro c b hc
    obtain ⟨rfl, g, hg, hrest⟩ := contig_cons_iff.mp hc
    by_cases hxa : x = a
    · subst hxa
      rw [hget] at hg
      cases hg
      refine contig_cons_iff.mpr ⟨rfl, h', memGet_memSet_self m x h', ?_⟩
      rw [hsz]
      exact ih hrest
    · exact contig_cons_iff.mpr ⟨rfl, g, by rw [memGet_memSet_ne m a x h' hxa]; exact hg, ih hrest⟩

theorem contig_memSet_notmem {m : Mem} {a : Nat} {h' : Header} :
    ∀ {L : List Nat} {c b : Nat}, a ∉ L → contigB m c L b = true →
      contigB (memSet m a h') c L b = true := by
  intro L
  induction L with
  | nil =>
    intro c b _ hc
    rw [contig_nil_iff] at hc ⊢
    exact hc
  | cons x xs ih =>
    intro c b hna hc
    obtain ⟨rfl, g, hg, hrest⟩ := contig_cons_iff.mp hc
    have hxa : x ≠ a := fun hh => hna (hh ▸ List.mem_cons_self x xs)
    refine contig_cons_iff.mpr ⟨rfl, g, by rw [memGet_memSet_ne m a x h' hxa]; exact hg, ?_⟩
    exact ih (fun hmem => hna (List.mem_cons_of_mem x hmem)) hrest

theorem contig_memErase_notmem {m : Mem} {a : Nat} :
    ∀ {L : List Nat} {c b : Nat}, a ∉ L → contigB m c L b = true →
      contigB (memErase m a) c L b = true := by
  intro L
  induction L with
  | nil =>
    intro c b _ hc
    rw [contig_nil_iff] at hc ⊢
    exact hc
  | cons x xs ih =>
    intro c b hna hc
    obtain ⟨rfl, g, hg, hrest⟩ := contig_cons_iff.mp hc
    have hxa : x ≠ a := fun hh => hna (hh ▸ List.mem_cons_self x xs)
    refine contig_cons_iff.mpr ⟨rfl, g, by rw [memGet_memErase_ne m a x hxa]; exact hg, ?_⟩
    exact ih (fun hmem => hna (List.mem_cons_of_mem x hmem)) hrest

theorem contig_append_one {m : Mem} {A : Nat} (sz : Nat) :
    ∀ {L : List Nat} {c b : Nat}, contigB m c L b = true →
      memGet m A = some { size := sz, is_free := false, next := none } → A = b →
      contigB m c (L ++ [A]) (b + sizeofHeader + sz) = true := by
  intro L
  induction L with
  | nil =>
    intro c b hc hget hA
    rw [contig_nil_iff] at hc
    subst hc
    subst hA
    exact contig_cons_iff.mpr ⟨rfl, _, hget, contig_nil_iff.mpr rfl⟩
  | cons x xs ih =>
    intro c b hc hget hA
    obtain ⟨rfl, g, hg, hrest⟩ := contig_cons_iff.mp hc
    exact contig_cons_iff.mpr ⟨rfl, g, hg, ih hrest hget hA⟩

theorem contig_drop_last {m : Mem} :
    ∀ {L : List Nat} {c b x : Nat} {h : Header},
      contigB m c (L ++ [x]) b = true → memGet m x = some h →
      contigB m c L (x) = true ∧ x + sizeofHeader + h.size = b := by
  intro L
  induction L with
  | nil =>
    intro c b x h hc hget
    simp only [List.nil_append] at hc
    obtain ⟨rfl, g, hg, hrest⟩ := contig_cons_iff.mp hc
    rw [hget] at hg
    cases hg
    exact ⟨contig_nil_iff.mpr rfl, contig_nil_iff.mp hrest ▸ rfl⟩
  | cons y ys ih =>
    intro c b x h hc hget
    simp only [List.cons_append] at hc
    obtain ⟨rfl, g, hg, hrest⟩ := contig_cons_iff.mp hc
    obtain ⟨h1, h2⟩ := ih hrest hget
    exact ⟨contig_cons_iff.mpr ⟨rfl, g, hg, h1⟩, h2⟩

end ContigLemmas

section OpLemmas

theorem mallocGrowState_brk (s : AState) (size nb : Nat) :
    (mallocGrowState s size nb).brk = nb := rfl

theorem mallocGrowState_tail (s : AState) (size nb : Nat) :
    (mallocGrowState s size nb).tail = some s.brk := rfl

theorem mallocGrowState_head (s : AState) (size nb : Nat) :
    (mallocGrowState s size nb).head = if s.head = none then some s.brk else s.head := rfl

theorem mallocGrowState_data (s : AState) (size nb : Nat) :
    (mallocGrowState s size nb).data = s.data := rfl

theorem mallocGrowState_heapBase (s : AState) (size nb : Nat) :
    (mallocGrowState s size nb).heapBase = s.heapBase := rfl

theorem mallocGrowState_brkLimit (s : AState) (size nb : Nat) :
    (mallocGrowState s size nb).brkLimit = s.brkLimit := rfl

theorem mallocGrowState_mem_none {s : AState} (size nb : Nat) (htail : s.tail = none) :
    (mallocGrowState s size nb).mem =
      memSet s.mem s.brk { size := size, is_free := false, next := none } := by
  simp only [mallocGrowState, htail]

theorem mallocGrowState_mem_some {s : AState} (size nb : Nat) {t : Nat} {th : Header}
    (htail : s.tail = some t)
    (hth : memGet (memSet s.mem s.brk { size := size, is_free := false, next := none }) t
      = some th) :
    (mallocGrowState s size nb).mem =
      memSet (memSet s.mem s.brk { size := size, is_free := false, next := none }) t
        { th with next := some s.brk } := by
  simp only [mallocGrowState, htail, hth]

theorem sbrkCall_pos {s : AState} {d : Int}
    (h : (s.heapBase : Int) ≤ (s.brk : Int) + d ∧ (s.brk : Int) + d ≤ (s.brkLimit : Int)) :
    sbrkCall s d = (some s.brk, { s with brk := ((s.brk : Int) + d).toNat }) := by
  simp only [sbrkCall, if_pos h]

theorem sbrkCall_neg {s : AState} {d : Int}
    (h : ¬((s.heapBase : Int) ≤ (s.brk : Int) + d ∧ (s.brk : Int) + d ≤ (s.brkLimit : Int))) :
    sbrkCall s d = (none, s) := by
  simp only [sbrkCall, if_neg h]

theorem toIntptr_small {v : Nat} (h : v < HALF) : toIntptr v = (v : Int) := by
  have hW : v < W := lt_trans h (by decide)
  simp [toIntptr, Nat.mod_eq_of_lt hW, h]

theorem gfbAux_sound {m : Mem} {size : Nat} :
    ∀ {fuel : Nat} {p : Option Nat} {a : Nat}, gfbAux m size fuel p = some a →
      ∃ h, memGet m a = some h ∧ h.is_free = true ∧ size ≤ h.size := by
  intro fuel
  induction fuel with
  | zero => intro p a h; simp [gfbAux] at h
  | succ fuel ih =>
    intro p a hres
    cases p with
    | none => simp [gfbAux] at hres
    | some x =>
      cases hg : memGet m x with
      | none => simp [gfbAux, hg] at hres
      | some hx =>
        simp only [gfbAux, hg] at hres
        by_cases hfit : hx.is_free = true ∧ size ≤ hx.size
        · rw [if_pos hfit] at hres
          cases hres
          exact ⟨hx, hg, hfit.1, hfit.2⟩
        · rw [if_neg hfit] at hres
          exact ih hres

theorem get_free_block_sound {s : AState} {size a : Nat}
    (h : get_free_block s size = some a) :
    ∃ hd, memGet s.mem a = some hd ∧ hd.is_free = true ∧ size ≤ hd.size := by
  exact gfbAux_sound h

theorem malloc_zero (s : AState) : malloc s 0 = (none, s) := by
  simp [malloc]

theorem malloc_reuse_eq {s : AState} {size a : Nat} {h : Header}
    (hsz : size ≠ 0) (hgfb : get_free_block s size = some a)
    (hget : memGet s.mem a = some h) :
    malloc s size =
      (some (a + sizeofHeader),
        { s with mem := memSet s.mem a { h with is_free := false } }) := by
  simp only [malloc, if_neg hsz, hgfb, hget]

theorem malloc_grow_ok {s : AState} {size : Nat}
    (hsz : size ≠ 0) (hgfb : get_free_block s size = none)
    (hok : (s.heapBase : Int) ≤ (s.brk : Int) + toIntptr ((sizeofHeader + size) % W) ∧
           (s.brk : Int) + toIntptr ((sizeofHeader + size) % W) ≤ (s.brkLimit : Int)) :
    malloc s size =
      (some (s.brk + sizeofHeader),
        mallocGrowState s size
          (((s.brk : Int) + toIntptr ((sizeofHeader + size) % W)).toNat)) := by
  simp only [malloc, if_neg hsz, hgfb]
  rw [sbrkCall_pos hok]
  rfl

theorem malloc_grow_fail {s : AState} {size : Nat}
    (hsz : size ≠ 0) (hgfb : get_free_block s size = none)
    (hbad : ¬((s.heapBase : Int) ≤ (s.brk : Int) + toIntptr ((sizeofHeader + size) % W) ∧
              (s.brk : Int) + toIntptr ((sizeofHeader + size) % W) ≤ (s.brkLimit : Int))) :
    malloc s size = (none, s) := by
  simp only [malloc, if_neg hsz, hgfb]
  rw [sbrkCall_neg hbad]

theorem malloc_none_state {s : AState} {size : Nat}
    (h : (malloc s size).1 = none) : (malloc s size).2 = s := by
  by_cases hsz : size = 0
  · subst hsz; rw [malloc_zero]
  · cases hgfb : get_free_block s size with
    | some a =>
      cases hget : memGet s.mem a with
      | none => simp [malloc, hsz, hgfb, hget]
      | some hd => rw [malloc_reuse_eq hsz hgfb hget] at h; simp at h
    | none =>
      by_cases hok : (s.heapBase : Int) ≤ (s.brk : Int) + toIntptr ((sizeofHeader + size) % W) ∧
          (s.brk : Int) + toIntptr ((sizeofHeader + size) % W) ≤ (s.brkLimit : Int)
      · rw [malloc_grow_ok hsz hgfb hok] at h; simp at h
      · rw [malloc_grow_fail hsz hgfb hok]

theorem malloc_data_eq (s : AState) (size : Nat) : (malloc s size).2.data = s.data := by
  by_cases hsz : size = 0
  · subst hsz; rw [malloc_zero]
  · cases hgfb : get_free_block s size with
    | some a =>
      cases hget : memGet s.mem a with
      | none => simp [malloc, hsz, hgfb, hget]
      | some hd => rw [malloc_reuse_eq hsz hgfb hget]
    | none =>
      by_cases hok : (s.heapBase : Int) ≤ (s.brk : Int) + toIntptr ((sizeofHeader + size) % W) ∧
          (s.brk : Int) + toIntptr ((sizeofHeader + size) % W) ≤ (s.brkLimit : Int)
      · rw [malloc_grow_ok hsz hgfb hok]; rfl
      · rw [malloc_grow_fail hsz hgfb hok]

theorem free_data_eq (s : AState) (b : Option Nat) : (free s b).data = s.data := by
  cases b with
  | none => rfl
  | some x =>
    cases hget : memGet s.mem (x - sizeofHeader) with
    | none => simp [free, hget]
    | some h =>
      simp only [free, hget]
      by_cases hbrk : (x + h.size) % W = s.brk
      · rw [if_pos hbrk]
        by_cases hht : s.head = s.tail
        · rw [if_pos hht]
          simp only [sbrkCall]
          split <;> rfl
        · rw [if_neg hht]
          simp only [sbrkCall]
          split <;> rfl
      · rw [if_neg hbrk]

end OpLemmas

section FreeLemmas

theorem fits_iff {m : Mem} {size a : Nat} :
    fits m size a = true ↔
      ∃ h, memGet m a = some h ∧ h.is_free = true ∧ size ≤ h.size := by
  unfold fits
  cases hg : memGet m a <;> simp [hg]

theorem chain_pred_next {m : Mem} {p t : Nat} {hp : Header}
    (hget : memGet m p = some hp) :
    ∀ {L1 : List Nat} {q : Option Nat}, Chain m q (L1 ++ [p, t]) → hp.next = some t := by
  intro L1
  induction L1 with
  | nil =>
    intro q h
    cases h with
    | @cons _ hx _ hgetx hc =>
      rw [hget] at hgetx
      cases hgetx
      exact chain_cons_head hc
  | cons y ys ih =>
    intro q h
    cases h with
    | @cons _ hx _ hgetx hc =>
      exact ih hc

theorem free_mark_eq {s : AState} {b : Nat} {h : Header}
    (hget : memGet s.mem (b - sizeofHeader) = some h)
    (hbrk : (b + h.size) % W ≠ s.brk) :
    free s (some b) =
      { s with mem := memSet s.mem (b - sizeofHeader) { h with is_free := true } } := by
  simp only [free, hget, if_neg hbrk]

theorem free_single_eq {s : AState} {b : Nat} {h : Header}
    (hget : memGet s.mem (b - sizeofHeader) = some h)
    (hbrk : (b + h.size) % W = s.brk) (hht : s.head = s.tail) :
    free s (some b) =
      (sbrkCall { s with head := none, tail := none,
                         mem := memErase s.mem (b - sizeofHeader) }
        (toIntptr ((W - (h.size + sizeofHeader) % W) % W))).2 := by
  simp only [free, hget, if_pos hbrk, if_pos hht]

theorem free_multi_eq {s : AState} {b : Nat} {h : Header}
    (hget : memGet s.mem (b - sizeofHeader) = some h)
    (hbrk : (b + h.size) % W = s.brk) (hht : ¬s.head = s.tail) :
    free s (some b) =
      (sbrkCall
        { s with
          mem := memErase (tailRepair s.mem s.tail s.head (s.mem.length + 1)).1
            (b - sizeofHeader),
          tail := (tailRepair s.mem s.tail s.head (s.mem.length + 1)).2 }
        (toIntptr ((W - (h.size + sizeofHeader) % W) % W))).2 := by
  simp only [free, hget, if_pos hbrk, if_neg hht]

theorem free_single_ok {s : AState} {b : Nat} {h : Header}
    (hget : memGet s.mem (b - sizeofHeader) = some h)
    (hbrk : (b + h.size) % W = s.brk) (hht : s.head = s.tail)
    (hcond : (s.heapBase : Int) ≤ (s.brk : Int) +
        toIntptr ((W - (h.size + sizeofHeader) % W) % W) ∧
      (s.brk : Int) + toIntptr ((W - (h.size + sizeofHeader) % W) % W)
        ≤ (s.brkLimit : Int)) :
    free s (some b) =
      { s with head := none, tail := none,
               mem := memErase s.mem (b - sizeofHeader),
               brk := ((s.brk : Int) +
                 toIntptr ((W - (h.size + sizeofHeader) % W) % W)).toNat } := by
  rw [free_single_eq hget hbrk hht]
  simp only [sbrkCall]
  rw [if_pos hcond]

theorem free_multi_ok {s : AState} {b : Nat} {h : Header}
    (hget : memGet s.mem (b - sizeofHeader) = some h)
    (hbrk : (b + h.size) % W = s.brk) (hht : ¬s.head = s.tail)
    (hcond : (s.heapBase : Int) ≤ (s.brk : Int) +
        toIntptr ((W - (h.size + sizeofHeader) % W) % W) ∧
      (s.brk : Int) + toIntptr ((W - (h.size + sizeofHeader) % W) % W)
        ≤ (s.brkLimit : Int)) :
    free s (some b) =
      { s with
        mem := memErase (tailRepair s.mem s.tail s.head (s.mem.length + 1)).1
          (b - sizeofHeader),
        tail := (tailRepair s.mem s.tail s.head (s.mem.length + 1)).2,
        brk := ((s.brk : Int) +
          toIntptr ((W - (h.size + sizeofHeader) % W) % W)).toNat } := by
  rw [free_multi_eq hget hbrk hht]
  simp only [sbrkCall]
  rw [if_pos hcond]

theorem free_invalid_eq {s : AState} {b : Nat}
    (hget : memGet s.mem (b - sizeofHeader) = none) :
    free s (some b) = s := by
  simp only [free, hget]

theorem nodup_last_not_mem {l : List Nat} {t : Nat} (h : (l ++ [t]).Nodup) : t ∉ l := by
  induction l with
  | nil => simp
  | cons z zs ih =>
    simp only [List.cons_append, List.nodup_cons] at h
    simp only [List.mem_cons]
    push_neg
    refine ⟨?_, ih h.2⟩
    intro htz
    exact h.1 (htz ▸ List.mem_append_right zs (List.mem_singleton_self t))

theorem nodup_append_singleton {l : List Nat} {a : Nat} (hnd : l.Nodup) (ha : a ∉ l) :
    (l ++ [a]).Nodup := by
  induction l with
  | nil => simp
  | cons z zs ih =>
    simp only [List.nodup_cons] at hnd
    simp only [List.mem_cons] at ha
    push_neg at ha
    refine List.nodup_cons.mpr ⟨?_, ih hnd.2 ha.2⟩
    intro hmem
    rcases List.mem_append.mp hmem with hmem | hmem
    · exact hnd.1 hmem
    · exact ha.1 (List.mem_singleton.mp hmem).symm

theorem erase_append_singleton {l : List Nat} {a : Nat} (ha : a ∉ l) :
    (l ++ [a]).erase a = l := by
  induction l with
  | nil => simp
  | cons z zs ih =>
    simp only [List.mem_cons] at ha
    push_neg at ha
    rw [List.cons_append, List.erase_cons, if_neg (by simpa using Ne.symm ha.1), ih ha.2]

theorem getLast?_two_split {L : List Nat} {t : Nat}
    (hlast : L.getLast? = some t) (hlen : 2 ≤ L.length) :
    ∃ L2 p, L = L2 ++ [p, t] := by
  have hdrop := List.dropLast_append_getLast? t hlast
  cases hL2 : L.dropLast with
  | nil =>
    rw [hL2] at hdrop
    rw [← hdrop] at hlen
    simp at hlen
  | cons z zs =>
    have hzs := List.dropLast_append_getLast? (l := z :: zs)
    cases hzs2 : (z :: zs).getLast? with
    | none => simp [List.getLast?_eq_none_iff] at hzs2
    | some p =>
      refine ⟨(z :: zs).dropLast, p, ?_⟩
      rw [← hdrop, hL2]
      rw [← hzs p hzs2]
      simp

theorem chain_last_next {m : Mem} :
    ∀ {L : List Nat} {q : Option Nat} {t : Nat} {th : Header},
      Chain m q L → L.getLast? = some t → memGet m t = some th → th.next = none := by
  intro L
  induction L with
  | nil =>
    intro q t th _ hlast
    simp at hlast
  | cons x xs ih =>
    intro q t th hc hlast hth
    cases hc with
    | @cons _ hx _ hgetx hcx =>
      by_cases hxs : xs = []
      · subst hxs
        have hxt : x = t := by simpa using hlast
        subst hxt
        rw [hth] at hgetx
        have hxh : hx = th := (Option.some.inj hgetx).symm
        subst hxh
        exact chain_head hcx
      · have hlast' : xs.getLast? = some t := by
          cases hxsd : xs with
          | nil => exact absurd hxsd hxs
          | cons y ys =>
            rw [hxsd] at hlast
            rw [List.getLast?_cons_cons] at hlast
            exact hlast
        exact ih hcx hlast' hth

theorem chain_append_last {m : Mem} {t A : Nat} {ht : Header} (hdr : Header)
    (_hgt : memGet m t = some ht) (hdrnext : hdr.next = none) (hAt : A ≠ t) :
    ∀ {L : List Nat} {q : Option Nat}, Chain m q L → L.getLast? = some t →
      A ∉ L → memGet m A = none →
      Chain (memSet (memSet m A hdr) t { ht with next := some A }) q (L ++ [A]) := by
  intro L
  induction L with
  | nil =>
    intro q hc hlast
    simp at hlast
  | cons x xs ih =>
    intro q hc hlast hA hAk
    cases hc with
    | @cons _ hx _ hgetx hcx =>
      simp only [List.mem_cons] at hA
      push_neg at hA
      by_cases hxs : xs = []
      · subst hxs
        have hxt : x = t := by simpa using hlast
        rw [hxt]
        refine Chain.cons (a := t) (h := { ht with next := some A })
          (memGet_memSet_self _ _ _) ?_
        show Chain _ (some A) [A]
        refine Chain.cons (a := A) (h := hdr) ?_ ?_
        · rw [memGet_memSet_ne _ _ _ _ hAt]
          exact memGet_memSet_self _ _ _
        · rw [hdrnext]
          exact Chain.nil
      · have hlast' : xs.getLast? = some t := by
          cases hxsd : xs with
          | nil => exact absurd hxsd hxs
          | cons y ys =>
            rw [hxsd] at hlast
            rw [List.getLast?_cons_cons] at hlast
            exact hlast
        have hxt : x ≠ t := by
          intro hcontra
          have hmem : t ∈ xs := by
            have hm : t ∈ xs.getLast? := by rw [hlast']; rfl
            obtain ⟨hne, heq⟩ := List.mem_getLast?_eq_getLast hm
            rw [heq]
            exact List.getLast_mem hne
          have hnd := chain_nodup (Chain.cons hgetx hcx)
          rw [hcontra] at hnd
          exact (List.nodup_cons.mp hnd).1 hmem
        refine Chain.cons (a := x) (h := hx) ?_ (ih hcx hlast' hA.2 hAk)
        rw [memGet_memSet_ne _ _ _ _ hxt]
        rw [memGet_memSet_ne _ _ _ _ (fun hh => hA.1 hh.symm)]
        exact hgetx

theorem chain_truncate {m : Mem} {p : Nat} {hp : Header}
    (hgp : memGet m p = some hp) :
    ∀ {L2 : List Nat} {q : Option Nat} {t : Nat},
      Chain m q (L2 ++ [p, t]) → (L2 ++ [p, t]).Nodup →
      Chain (memSet m p { hp with next := none }) q (L2 ++ [p]) := by
  intro L2
  induction L2 with
  | nil =>
    intro q t hc _
    cases hc with
    | @cons _ hx _ hgetx hcx =>
      rw [hgp] at hgetx
      cases hgetx
      refine Chain.cons (a := p) (h := { hp with next := none })
        (memGet_memSet_self _ _ _) ?_
      show Chain _ none []
      exact Chain.nil
  | cons z zs ih =>
    intro q t hc hnd
    cases hc with
    | @cons _ hz _ hgetz hcz =>
      have hzp : z ≠ p := by
        intro hcontra
        have hmem : z ∈ zs ++ [p, t] := by
          rw [hcontra]
          simp
        exact (List.nodup_cons.mp hnd).1 hmem
      refine Chain.cons (a := z) (h := hz) ?_ ?_
      · rw [memGet_memSet_ne _ _ _ _ hzp]
        exact hgetz
      · exact ih hcz (List.nodup_cons.mp hnd).2

theorem toIntptr_shrink {x : Nat} (hx0 : 0 < x) (hx : x ≤ HALF) :
    toIntptr ((W - x % W) % W) = -(x : Int) := by
  have hHW : HALF < W := by decide
  have hxW : x < W := Nat.lt_of_le_of_lt hx hHW
  have hWH : W = 2 * HALF := by decide
  rw [Nat.mod_eq_of_lt hxW]
  have h1 : W - x < W := by omega
  unfold toIntptr
  have h2 : (W - x) % W = W - x := Nat.mod_eq_of_lt h1
  have h3 : (W - x) % W % W = W - x := by rw [h2, h2]
  rw [if_neg (by omega)]
  rw [h2]
  omega

end FreeLemmas

section ReallocLemmas

theorem realloc_none (s : AState) (size : Nat) :
    realloc s none size = malloc s size := rfl

theorem realloc_zero_arg (s : AState) (b : Nat) :
    realloc s (some b) 0 = (none, s) := by
  simp [realloc, malloc_zero]

theorem realloc_keep {s : AState} {b size : Nat} {h : Header}
    (hsz : size ≠ 0) (hget : memGet s.mem (b - sizeofHeader) = some h)
    (hle : size ≤ h.size) :
    realloc s (some b) size = (some b, s) := by
  simp [realloc, hsz, hget, hle]

theorem realloc_move_fail {s : AState} {b size : Nat} {h : Header}
    (hsz : size ≠ 0) (hget : memGet s.mem (b - sizeofHeader) = some h)
    (hlt : h.size < size) (hfail : (malloc s size).1 = none) :
    realloc s (some b) size = (none, s) := by
  have hm : malloc s size = (none, s) := by
    have h2 := malloc_none_state hfail
    cases hmal : malloc s size with
    | mk r st =>
      rw [hmal] at hfail h2
      simp only at hfail h2
      rw [hfail, h2]
  simp only [realloc, if_neg hsz, hget]
  rw [if_neg (Nat.not_le.mpr hlt), hm]

theorem realloc_move_ok {s : AState} {b size ret : Nat} {h h1 : Header} {s1 : AState}
    (hsz : size ≠ 0) (hget : memGet s.mem (b - sizeofHeader) = some h)
    (hlt : h.size < size) (hmal : malloc s size = (some ret, s1))
    (hre : memGet s1.mem (b - sizeofHeader) = some h1) :
    realloc s (some b) size =
      (some ret, free { s1 with data := memcpyBytes s1.data ret b h1.size } (some b)) := by
  simp only [realloc, if_neg hsz, hget]
  rw [if_neg (Nat.not_le.mpr hlt), hmal]
  simp only [hre]

theorem grow_tail_header {s : AState} {L : List Nat} {t : Nat} (hw : WFc s L)
    (htail : s.tail = some t) :
    ∃ th, memGet s.mem t = some th ∧ t ≠ s.brk := by
  have h1 := hw.2.2.2.1
  rw [htail] at h1
  have hmem : t ∈ L.getLast? := by rw [← h1]; rfl
  obtain ⟨hne, heq⟩ := List.mem_getLast?_eq_getLast hmem
  have htL : t ∈ L := by rw [heq]; exact List.getLast_mem hne
  have htbrk : t < s.brk := by
    obtain ⟨g, _, _, hend⟩ := contig_mem_bounds hw.2.2.2.2.1 htL
    have h32 : (0 : Nat) < sizeofHeader := by decide
    omega
  have htsome : (memGet s.mem t).isSome := by
    rw [memGet_isSome_iff_mem_keys, hw.2.2.1]
    exact htL
  obtain ⟨th, hth⟩ := Option.isSome_iff_exists.mp htsome
  exact ⟨th, hth, Nat.ne_of_lt htbrk⟩

theorem malloc_keeps_header {s : AState} {L : List Nat} {a : Nat} (size : Nat) {h : Header}
    (hw : WFc s L) (hget : memGet s.mem a = some h) (hlive : h.is_free = false) :
    ∃ h', memGet (malloc s size).2.mem a = some h' ∧
      h'.size = h.size ∧ h'.is_free = false := by
  by_cases hsz : size = 0
  · subst hsz
    rw [malloc_zero]
    exact ⟨h, hget, rfl, hlive⟩
  · cases hgfb : get_free_block s size with
    | some c =>
      obtain ⟨hc, hgc, hcfree, _⟩ := get_free_block_sound hgfb
      have hca : c ≠ a := by
        intro hcontra
        rw [hcontra, hget] at hgc
        cases hgc
        rw [hlive] at hcfree
        cases hcfree
      rw [malloc_reuse_eq hsz hgfb hgc]
      refine ⟨h, ?_, rfl, hlive⟩
      simp only
      rw [memGet_memSet_ne s.mem c a _ (fun hh => hca hh.symm)]
      exact hget
    | none =>
      by_cases hok : (s.heapBase : Int) ≤ (s.brk : Int) + toIntptr ((sizeofHeader + size) % W) ∧
          (s.brk : Int) + toIntptr ((sizeofHeader + size) % W) ≤ (s.brkLimit : Int)
      · rw [malloc_grow_ok hsz hgfb hok]
        have hmemL : a ∈ L := by
          have := (memGet_isSome_iff_mem_keys s.mem a).mp (by rw [hget]; rfl)
          rwa [hw.2.2.1] at this
        have habrk : a < s.brk := by
          obtain ⟨g, _, _, hend⟩ := contig_mem_bounds hw.2.2.2.2.1 hmemL
          have h32 : 0 < sizeofHeader := by decide
          omega
        have hane : a ≠ s.brk := Nat.ne_of_lt habrk
        cases htail : s.tail with
        | none =>
          rw [mallocGrowState_mem_none _ _ htail]
          refine ⟨h, ?_, rfl, hlive⟩
          rw [memGet_memSet_ne s.mem s.brk a _ hane]
          exact hget
        | some t =>
          have htL : t ∈ L := by
            have h1 := hw.2.2.2.1
            rw [htail] at h1
            have hmem : t ∈ L.getLast? := by rw [← h1]; rfl
            obtain ⟨hne, heq⟩ := List.mem_getLast?_eq_getLast hmem
            rw [heq]
            exact List.getLast_mem hne
          have htbrk : t < s.brk := by
            obtain ⟨g, _, _, hend⟩ := contig_mem_bounds hw.2.2.2.2.1 htL
            have h32 : 0 < sizeofHeader := by decide
            omega
          have htne : t ≠ s.brk := Nat.ne_of_lt htbrk
          have htsome : (memGet s.mem t).isSome := by
            rw [memGet_isSome_iff_mem_keys, hw.2.2.1]
            exact htL
          obtain ⟨th, hth⟩ := Option.isSome_iff_exists.mp htsome
          have hm1t : memGet (memSet s.mem s.brk
              { size := size, is_free := false, next := none }) t = some th := by
            rw [memGet_memSet_ne s.mem s.brk t _ htne]
            exact hth
          rw [mallocGrowState_mem_some _ _ htail hm1t]
          by_cases hat : a = t
          · subst hat
            rw [hget] at hth
            cases hth
            exact ⟨{ h with next := some s.brk }, memGet_memSet_self _ _ _, rfl, hlive⟩
          · refine ⟨h, ?_, rfl, hlive⟩
            rw [memGet_memSet_ne _ t a _ hat,
              memGet_memSet_ne s.mem s.brk a _ hane]
            exact hget
      · rw [malloc_grow_fail hsz hgfb hok]
        exact ⟨h, hget, rfl, hlive⟩

end ReallocLemmas

section CallocLemmas

theorem calloc_zero_args {s : AState} {num nsize : Nat} (h : num = 0 ∨ nsize = 0) :
    calloc s num nsize = (none, s) := by
  simp only [calloc, if_pos h]

theorem calloc_check_fail {s : AState} {num nsize : Nat} (h0 : ¬(num = 0 ∨ nsize = 0))
    (hchk : nsize ≠ ((num * nsize) % W) / num) : calloc s num nsize = (none, s) := by
  simp only [calloc, if_neg h0]
  rw [if_pos hchk]

theorem calloc_alloc_none {s s1 : AState} {num nsize : Nat} (h0 : ¬(num = 0 ∨ nsize = 0))
    (hchk : ¬(nsize ≠ ((num * nsize) % W) / num))
    (hmal : malloc s ((num * nsize) % W) = (none, s1)) :
    calloc s num nsize = (none, s1) := by
  simp only [calloc, if_neg h0, if_neg hchk, hmal]

theorem calloc_alloc_some {s s1 : AState} {num nsize b : Nat} (h0 : ¬(num = 0 ∨ nsize = 0))
    (hchk : ¬(nsize ≠ ((num * nsize) % W) / num))
    (hmal : malloc s ((num * nsize) % W) = (some b, s1)) :
    calloc s num nsize =
      (some b, { s1 with data := memsetBytes s1.data b 0 ((num * nsize) % W) }) := by
  simp only [calloc, if_neg h0, if_neg hchk, hmal]

theorem overflow_check_iff {num nsize : Nat} (hnum : 0 < num) (_hns : 0 < nsize) :
    (nsize ≠ ((num * nsize) % W) / num) ↔ W ≤ num * nsize := by
  constructor
  · intro hne
    by_contra hlt
    rw [Nat.not_le] at hlt
    exact hne (by rw [Nat.mod_eq_of_lt hlt, Nat.mul_div_cancel_left _ hnum])
  · intro hge heq
    have hq : 1 ≤ num * nsize / W := (Nat.one_le_div_iff (by decide : 0 < W)).mpr hge
    have hmod := Nat.mod_add_div (num * nsize) W
    have hWpos : (0 : Nat) < W := by decide
    have h1 : W * 1 ≤ W * (num * nsize / W) := Nat.mul_le_mul_left W hq
    have hs : (num * nsize) % W ≤ num * nsize - W := by omega
    have hdivlt : (num * nsize) % W / num < nsize := by
      rw [Nat.div_lt_iff_lt_mul hnum]
      calc (num * nsize) % W ≤ num * nsize - W := hs
        _ < num * nsize := by omega
        _ = nsize * num := Nat.mul_comm _ _
    omega

end CallocLemmas

theorem sLive_wf : WFc sLive [1000] := by
  refine ⟨Chain.cons (h := hdr100) (by decide) ?_, by decide, rfl, rfl, by decide,
    by decide, by decide⟩
  show Chain sLive.mem hdr100.next []
  exact Chain.nil

/-- Claim C4: when `resize` must move a block (stored size below the new
size) and its internal `allocate` fails, it returns null and the old block
is completely untouched: the whole state, the old header and all payload
bytes are exactly as before the call. -/
theorem claim_C4 (s : AState) (b size : Nat) (h : Header)
    (hsz : 0 < size) (hget : memGet s.mem (b - sizeofHeader) = some h)
    (hlt : h.size < size) (hfail : (malloc s size).1 = none) :
    realloc s (some b) size = (none, s) ∧
    memGet (realloc s (some b) size).2.mem (b - sizeofHeader) = some h ∧
    (∀ x, (realloc s (some b) size).2.data x = s.data x) := by
  have hmain := realloc_move_fail (Nat.pos_iff_ne_zero.mp hsz) hget hlt hfail
  refine ⟨hmain, ?_, ?_⟩
  · rw [hmain]
    exact hget
  · intro x
    rw [hmain]

/-- Witness for C4 at a concrete state: growing the 100-byte block at
payload 1032 to 200 bytes under a 1140 ceiling makes the internal
`malloc` fail, and `realloc` returns null leaving the state unchanged. -/
theorem claim_C4_witness :
    (0 < 200 ∧ memGet sTight.mem (1032 - sizeofHeader) = some hdr100 ∧
      hdr100.size < 200 ∧ (malloc sTight 200).1 = none) ∧
    realloc sTight (some 1032) 200 = (none, sTight) :=
  ⟨⟨by decide, by decide, by decide, by decide⟩,
    (claim_C4 sTight 1032 200 hdr100 (by decide) (by decide) (by decide) (by decide)).1⟩

/-- Claim C5: when `malloc` reuses a free block, the only header field that
changes is `is_free`; in particular the stored `size` keeps its original
larger value and is not shrunk to the request. -/
theorem claim_C5 (s : AState) (size a : Nat) (h : Header)
    (hsz : 0 < size) (hgfb : get_free_block s size = some a)
    (hget : memGet s.mem a = some h) :
    (malloc s size).1 = some (a + sizeofHeader) ∧
    memGet (malloc s size).2.mem a = some { h with is_free := false } := by
  rw [malloc_reuse_eq (Nat.pos_iff_ne_zero.mp hsz) hgfb hget]
  exact ⟨rfl, memGet_memSet_self _ _ _⟩

/-- Witness for C5, the spec's scenario: `malloc(100)`, a second outstanding
allocation, `free` of the first block (non-trailing, so no heap shrink),
then `malloc(10)` returns the same payload address 1032 and the header's
stored size is still 100, not 10. -/
theorem claim_C5_witness :
    (0 < 10 ∧ get_free_block c5s3 10 = some 1000 ∧
      memGet c5s3.mem 1000 = some { size := 100, is_free := true, next := some 1132 }) ∧
    ((malloc c5s3 10).1 = some (1000 + sizeofHeader) ∧
      memGet (malloc c5s3 10).2.mem 1000 =
        some { size := 100, is_free := false, next := some 1132 }) :=
  ⟨⟨by decide, by decide, by decide⟩,
    claim_C5 c5s3 10 1000 { size := 100, is_free := true, next := some 1132 }
      (by decide) (by decide) (by decide)⟩

/-- Claim C6: `resize` to a size the stored size already accommodates
returns the same payload address and performs no mutation at all: the
result state is the input state. -/
theorem claim_C6 (s : AState) (b size : Nat) (h : Header)
    (hsz : 0 < size) (hget : memGet s.mem (b - sizeofHeader) = some h)
    (hle : size ≤ h.size) :
    realloc s (some b) size = (some b, s) :=
  realloc_keep (Nat.pos_iff_ne_zero.mp hsz) hget hle

/-- Witness for C6: shrinking the live 100-byte block at payload 1032 to 30
bytes returns the same address and the very same state. -/
theorem claim_C6_witness :
    (0 < 30 ∧ memGet sLive.mem (1032 - sizeofHeader) = some hdr100 ∧ 30 ≤ hdr100.size) ∧
    realloc sLive (some 1032) 30 = (some 1032, sLive) :=
  ⟨⟨by decide, by decide, by decide⟩,
    claim_C6 sLive 1032 30 hdr100 (by decide) (by decide) (by decide)⟩

section Preservation

theorem wfc_set_data {s : AState} {L : List Nat} {d : Nat → Nat} (hw : WFc s L) :
    WFc { s with data := d } L := hw

theorem wfc_mem_lt_brk {s : AState} {L : List Nat} (hw : WFc s L) :
    ∀ x ∈ L, x < s.brk := by
  intro x hx
  obtain ⟨g, _, _, hend⟩ := contig_mem_bounds hw.2.2.2.2.1 hx
  have h32 : (0 : Nat) < sizeofHeader := by decide
  omega

theorem wf_malloc {s : AState} {L : List Nat} (size : Nat) (hw : WFc s L)
    (hsize : sizeofHeader + size < HALF) :
    ∃ L', WFc (malloc s size).2 L' := by
  by_cases hsz : size = 0
  · subst hsz
    rw [malloc_zero]
    exact ⟨L, hw⟩
  · cases hgfb : get_free_block s size with
    | some a =>
      obtain ⟨h, hget, _, _⟩ := get_free_block_sound hgfb
      rw [malloc_reuse_eq hsz hgfb hget]
      obtain ⟨hchain, hndk, hkeys, htaileq, hcontig, hbl, hlim⟩ := hw
      have haK : a ∈ keys s.mem :=
        (memGet_isSome_iff_mem_keys _ _).mp (by rw [hget]; rfl)
      refine ⟨L, chain_memSet_same_next { h with is_free := false } hget rfl hchain,
        ?_, ?_, htaileq, ?_, hbl, hlim⟩
      · rw [keys_memSet_mem _ _ _ haK]
        exact hndk
      · rw [keys_memSet_mem _ _ _ haK]
        exact hkeys
      · exact contig_memSet_same_size { h with is_free := false } hget rfl hcontig
    | none =>
      by_cases hok : (s.heapBase : Int) ≤ (s.brk : Int) + toIntptr ((sizeofHeader + size) % W) ∧
          (s.brk : Int) + toIntptr ((sizeofHeader + size) % W) ≤ (s.brkLimit : Int)
      · rw [malloc_grow_ok hsz hgfb hok]
        obtain ⟨hchain, hndk, hkeys, htaileq, hcontig, hbl, hlim⟩ := hw
        have htot : (sizeofHeader + size) % W = sizeofHeader + size :=
          Nat.mod_eq_of_lt (Nat.lt_trans hsize (by decide))
        have hdpos : toIntptr ((sizeofHeader + size) % W) = ((sizeofHeader + size : Nat) : Int) := by
          rw [htot]
          exact toIntptr_small hsize
        have hnb : (((s.brk : Int) + toIntptr ((sizeofHeader + size) % W)).toNat)
            = s.brk + sizeofHeader + size := by
          rw [hdpos]
          omega
        have hlimn : s.brk + sizeofHeader + size ≤ s.brkLimit := by
          have := hok.2
          rw [hdpos] at this
          omega
        have hlt_all : ∀ x ∈ L, x < s.brk := by
          intro x hx
          obtain ⟨g, _, _, hend⟩ := contig_mem_bounds hcontig hx
          have h32 : (0 : Nat) < sizeofHeader := by decide
          omega
        have hfreshK : s.brk ∉ keys s.mem := by
          rw [hkeys]
          intro hmem
          exact Nat.lt_irrefl _ (hlt_all _ hmem)
        have hfresh : memGet s.mem s.brk = none := (memGet_eq_none_iff _ _).mpr hfreshK
        rw [hnb]
        cases htail : s.tail with
        | none =>
          have hLnil : L = [] := by
            rw [htail] at htaileq
            exact (List.getLast?_eq_none_iff).mp htaileq.symm
          have hheadnone : s.head = none := by
            rw [chain_head hchain, hLnil]
            rfl
          have hbase : s.heapBase = s.brk := by
            rw [hLnil] at hcontig
            exact contig_nil_iff.mp hcontig
          refine ⟨[s.brk], ?_, ?_, ?_, ?_, ?_, ?_, hlim⟩
          · rw [mallocGrowState_mem_none _ _ htail, mallocGrowState_head, if_pos hheadnone]
            refine Chain.cons (h := { size := size, is_free := false, next := none })
              (memGet_memSet_self _ _ _) ?_
            exact Chain.nil
          · rw [mallocGrowState_mem_none _ _ htail, keys_memSet_fresh _ _ _ hfreshK,
              hkeys, hLnil]
            simp
          · rw [mallocGrowState_mem_none _ _ htail, keys_memSet_fresh _ _ _ hfreshK,
              hkeys, hLnil]
            rfl
          · rw [mallocGrowState_tail]
            rfl
          · rw [mallocGrowState_mem_none _ _ htail, mallocGrowState_heapBase,
              mallocGrowState_brk, hbase]
            refine contig_cons_iff.mpr ⟨rfl, _, memGet_memSet_self _ _ _, ?_⟩
            rw [contig_nil_iff]
          · rw [mallocGrowState_brk, mallocGrowState_brkLimit]
            exact hlimn
        | some t =>
          obtain ⟨th, hth, htne⟩ := grow_tail_header
            ⟨hchain, hndk, hkeys, htaileq, hcontig, hbl, hlim⟩ htail
          have hm1t : memGet (memSet s.mem s.brk
              { size := size, is_free := false, next := none }) t = some th := by
            rw [memGet_memSet_ne s.mem s.brk t _ htne]
            exact hth
          have hmemeq := mallocGrowState_mem_some (s := s) size
            (s.brk + sizeofHeader + size) htail hm1t
          have hbrkL : s.brk ∉ L := by
            intro hmem
            exact Nat.lt_irrefl _ (hlt_all _ hmem)
          have hlastt : L.getLast? = some t := by
            rw [htail] at htaileq
            exact htaileq.symm
          have hLne : L ≠ [] := by
            intro hcontra
            rw [hcontra] at hlastt
            simp at hlastt
          have hheadsome : s.head ≠ none := by
            rw [chain_head hchain]
            cases hL : L with
            | nil => exact absurd hL hLne
            | cons z zs => simp
          refine ⟨L ++ [s.brk], ?_, ?_, ?_, ?_, ?_, ?_, hlim⟩
          · rw [hmemeq, mallocGrowState_head, if_neg hheadsome]
            exact chain_append_last { size := size, is_free := false, next := none }
              hth rfl (fun hh => htne hh.symm) hchain hlastt
              hbrkL hfresh
          · rw [hmemeq]
            have htK : t ∈ keys (memSet s.mem s.brk
                { size := size, is_free := false, next := none }) := by
              rw [keys_memSet_fresh _ _ _ hfreshK, hkeys]
              have : t ∈ L := by
                obtain ⟨hne, heq⟩ := List.mem_getLast?_eq_getLast
                  (show t ∈ L.getLast? by rw [hlastt]; rfl)
                rw [heq]
                exact List.getLast_mem hne
              exact List.mem_append_left _ this
            rw [keys_memSet_mem _ _ _ htK, keys_memSet_fresh _ _ _ hfreshK, hkeys]
            exact nodup_append_singleton (hkeys ▸ hndk) hbrkL
          · rw [hmemeq]
            have htK : t ∈ keys (memSet s.mem s.brk
                { size := size, is_free := false, next := none }) := by
              rw [keys_memSet_fresh _ _ _ hfreshK, hkeys]
              have : t ∈ L := by
                obtain ⟨hne, heq⟩ := List.mem_getLast?_eq_getLast
                  (show t ∈ L.getLast? by rw [hlastt]; rfl)
                rw [heq]
                exact List.getLast_mem hne
              exact List.mem_append_left _ this
            rw [keys_memSet_mem _ _ _ htK, keys_memSet_fresh _ _ _ hfreshK, hkeys]
          · rw [mallocGrowState_tail, List.getLast?_concat]
          · rw [hmemeq, mallocGrowState_heapBase, mallocGrowState_brk]
            have c1 : contigB (memSet s.mem s.brk
                { size := size, is_free := false, next := none })
                s.heapBase L s.brk = true :=
              contig_memSet_notmem hbrkL hcontig
            have c2 : contigB (memSet (memSet s.mem s.brk
                { size := size, is_free := false, next := none }) t
                { th with next := some s.brk }) s.heapBase L s.brk = true :=
              contig_memSet_same_size { th with next := some s.brk } hm1t rfl c1
            refine contig_append_one (A := s.brk) size c2 ?_ rfl
            rw [memGet_memSet_ne _ _ _ _ (Ne.symm htne)]
            exact memGet_memSet_self _ _ _
          · rw [mallocGrowState_brk, mallocGrowState_brkLimit]
            exact hlimn
      · rw [malloc_grow_fail hsz hgfb hok]
        exact ⟨L, hw⟩

theorem wf_free {s : AState} {L : List Nat} (hw : WFc s L) :
    ∀ b, ∃ L', WFc (free s b) L' := by
  intro b
  cases b with
  | none => exact ⟨L, hw⟩
  | some x =>
    cases hget : memGet s.mem (x - sizeofHeader) with
    | none =>
      rw [free_invalid_eq hget]
      exact ⟨L, hw⟩
    | some h =>
      obtain ⟨hchain, hndk, hkeys, htaileq, hcontig, hbl, hlim⟩ := hw
      have htL : x - sizeofHeader ∈ L := by
        have := (memGet_isSome_iff_mem_keys s.mem (x - sizeofHeader)).mp (by rw [hget]; rfl)
        rwa [hkeys] at this
      obtain ⟨g, hg, hbase_le, hend_le⟩ := contig_mem_bounds hcontig htL
      rw [hget] at hg
      cases hg
      have h32 : sizeofHeader = 32 := rfl
      have hWbig : s.brk < W := by
        have h1 : s.brk < HALF := Nat.lt_of_le_of_lt hbl hlim
        have h2 : HALF < W := by decide
        omega
      by_cases hfire : (x + h.size) % W = s.brk
      · have hx32 : sizeofHeader ≤ x := by
          by_contra hlt
          push_neg at hlt
          have hxz : x - sizeofHeader = 0 := by omega
          rw [hxz] at hend_le
          have hxs : x + h.size < s.brk := by omega
          rw [Nat.mod_eq_of_lt (by omega)] at hfire
          omega
        have hendeq : x + h.size = s.brk := by
          have hlt : x + h.size < W := by omega
          rw [Nat.mod_eq_of_lt hlt] at hfire
          exact hfire
        have hlastt : L.getLast? = some (x - sizeofHeader) :=
          contig_end_eq_last hcontig htL hget (by omega)
        have hxle : h.size + sizeofHeader ≤ HALF := by
          have : s.brk < HALF := Nat.lt_of_le_of_lt hbl hlim
          omega
        have hd := toIntptr_shrink (x := h.size + sizeofHeader) (by omega) hxle
        have hcond : (s.heapBase : Int) ≤ (s.brk : Int) +
            toIntptr ((W - (h.size + sizeofHeader) % W) % W) ∧
            (s.brk : Int) + toIntptr ((W - (h.size + sizeofHeader) % W) % W)
              ≤ (s.brkLimit : Int) := by
          rw [hd]
          constructor <;> omega
        have hnb : (((s.brk : Int) +
            toIntptr ((W - (h.size + sizeofHeader) % W) % W)).toNat)
              = x - sizeofHeader := by
          rw [hd]
          omega
        by_cases hsingle : L = [x - sizeofHeader]
        · have hhd : s.head = some (x - sizeofHeader) := by
            rw [chain_head hchain, hsingle]
            rfl
          have htl : s.tail = some (x - sizeofHeader) := by
            rw [htaileq, hsingle]
            rfl
          have hht : s.head = s.tail := by rw [hhd, htl]
          rw [free_single_ok hget hfire hht hcond]
          have hkeysnil : keys (memErase s.mem (x - sizeofHeader)) = [] := by
            rw [keys_memErase, hkeys, hsingle]
            simp
          have hbase : x - sizeofHeader = s.heapBase := by
            have := contig_cons_iff.mp (hsingle ▸ hcontig)
            exact this.1
          refine ⟨[], Chain.nil, ?_, hkeysnil, rfl, ?_, ?_, hlim⟩
          · rw [hkeysnil]
            exact List.nodup_nil
          · show contigB _ s.heapBase [] _ = true
            rw [contig_nil_iff, hnb]
            exact hbase.symm
          · show ((s.brk : Int) +
              toIntptr ((W - (h.size + sizeofHeader) % W) % W)).toNat ≤ s.brkLimit
            rw [hnb]
            omega
        · have hlen2 : 2 ≤ L.length := by
            cases hL : L with
            | nil =>
              rw [hL] at hlastt
              simp at hlastt
            | cons z zs =>
              cases hzs : zs with
              | nil =>
                exfalso
                apply hsingle
                rw [hL, hzs] at hlastt
                simp at hlastt
                rw [hL, hzs, hlastt]
              | cons w ws =>
                simp [List.length_cons]
          obtain ⟨L2, p, hLsplit⟩ := getLast?_two_split hlastt hlen2
          have hndL := chain_nodup hchain
          have htl : s.tail = some (x - sizeofHeader) := by rw [htaileq, hlastt]
          have hsplit2 : L = (L2 ++ [p]) ++ [x - sizeofHeader] := by
            rw [hLsplit]
            simp
          have htnotmem : x - sizeofHeader ∉ L2 ++ [p] :=
            nodup_last_not_mem (by rw [← hsplit2]; exact hndL)
          have hpt : p ≠ x - sizeofHeader := by
            intro hcontra
            exact htnotmem (hcontra ▸ List.mem_append_right L2 (List.mem_singleton_self p))
          have hht : ¬s.head = s.tail := by
            rw [chain_head hchain, htl, hLsplit]
            cases hL2 : L2 with
            | nil =>
              simp only [List.nil_append, List.head?_cons, ne_eq, Option.some.injEq]
              exact hpt
            | cons z zs =>
              simp only [List.cons_append, List.head?_cons, ne_eq, Option.some.injEq]
              intro hcontra
              have hzmem : z ∈ L2 ++ [p] := by
                rw [hL2]
                exact List.mem_cons_self z _
              rw [hcontra] at hzmem
              exact htnotmem hzmem
          have hpL : p ∈ L := by
            rw [hLsplit]
            simp
          obtain ⟨hp, hhp⟩ := Option.isSome_iff_exists.mp
            (show (memGet s.mem p).isSome by
              rw [memGet_isSome_iff_mem_keys, hkeys]
              exact hpL)
          have hlenL : L.length = s.mem.length := by
            rw [← hkeys]
            simp [keys]
          have hrepair : tailRepair s.mem s.tail s.head (s.mem.length + 1) =
              (memSet s.mem p { hp with next := none }, some p) := by
            rw [htl]
            refine tailRepair_spec hhp (by rwa [hLsplit] at hchain)
              (by rwa [hLsplit] at hndL) ?_
            rw [← hLsplit, hlenL]
            omega
          rw [free_multi_ok hget hfire hht hcond]
          simp only [hrepair]
          have hkeyseq : keys (memErase (memSet s.mem p { hp with next := none })
              (x - sizeofHeader)) = L2 ++ [p] := by
            rw [keys_memErase, keys_memSet_mem _ _ _ (by rw [hkeys]; exact hpL),
              hkeys, hsplit2, erase_append_singleton htnotmem]
          refine ⟨L2 ++ [p], ?_, ?_, hkeyseq, ?_, ?_, ?_, hlim⟩
          · have hc1 : Chain (memSet s.mem p { hp with next := none }) s.head
                (L2 ++ [p]) :=
              chain_truncate hhp (by rwa [hLsplit] at hchain) (by rwa [hLsplit] at hndL)
            exact chain_memErase_notmem htnotmem hc1
          · rw [hkeyseq]
            have := hndL
            rw [hsplit2] at this
            exact (List.nodup_append.mp this).1
          · show some p = (L2 ++ [p]).getLast?
            rw [List.getLast?_concat]
          · have hdl := contig_drop_last (L := L2 ++ [p])
              (by rwa [hsplit2] at hcontig) hget
            have c1 : contigB (memSet s.mem p { hp with next := none }) s.heapBase
                (L2 ++ [p]) (x - sizeofHeader) = true :=
              contig_memSet_same_size { hp with next := none } hhp rfl hdl.1
            have c2 : contigB (memErase (memSet s.mem p { hp with next := none })
                (x - sizeofHeader)) s.heapBase (L2 ++ [p]) (x - sizeofHeader) = true :=
              contig_memErase_notmem htnotmem c1
            show contigB _ s.heapBase (L2 ++ [p])
              ((s.brk : Int) + toIntptr ((W - (h.size + sizeofHeader) % W) % W)).toNat
              = true
            rw [hnb]
            exact c2
          · show ((s.brk : Int) +
              toIntptr ((W - (h.size + sizeofHeader) % W) % W)).toNat ≤ s.brkLimit
            rw [hnb]
            omega
      · rw [free_mark_eq hget hfire]
        refine ⟨L, chain_memSet_same_next { h with is_free := true } hget rfl hchain,
          ?_, ?_, htaileq, ?_, hbl, hlim⟩
        · rw [keys_memSet_mem _ _ _ (by rw [hkeys]; exact htL)]
          exact hndk
        · rw [keys_memSet_mem _ _ _ (by rw [hkeys]; exact htL)]
          exact hkeys
        · exact contig_memSet_same_size { h with is_free := true } hget rfl hcontig

theorem memGet_memSet_isSome {m : Mem} {a k : Nat} {h : Header}
    (hs : (memGet m a).isSome) : (memGet (memSet m k h) a).isSome := by
  by_cases hak : a = k
  · subst hak
    rw [memGet_memSet_self]
    rfl
  · rw [memGet_memSet_ne _ _ _ _ hak]
    exact hs

theorem malloc_mem_isSome {s : AState} (size : Nat) {a : Nat}
    (hs : (memGet s.mem a).isSome) : (memGet (malloc s size).2.mem a).isSome := by
  by_cases hsz : size = 0
  · subst hsz
    rw [malloc_zero]
    exact hs
  · cases hgfb : get_free_block s size with
    | some c =>
      obtain ⟨hc, hgc, _, _⟩ := get_free_block_sound hgfb
      rw [malloc_reuse_eq hsz hgfb hgc]
      exact memGet_memSet_isSome hs
    | none =>
      by_cases hok : (s.heapBase : Int) ≤ (s.brk : Int) + toIntptr ((sizeofHeader + size) % W) ∧
          (s.brk : Int) + toIntptr ((sizeofHeader + size) % W) ≤ (s.brkLimit : Int)
      · rw [malloc_grow_ok hsz hgfb hok]
        simp only [mallocGrowState]
        cases htail : s.tail with
        | none => exact memGet_memSet_isSome hs
        | some t =>
          cases hmm : memGet (memSet s.mem s.brk
              { size := size, is_free := false, next := none }) t with
          | none =>
            simp only [hmm]
            exact memGet_memSet_isSome hs
          | some th =>
            simp only [hmm]
            exact memGet_memSet_isSome (memGet_memSet_isSome hs)
      · rw [malloc_grow_fail hsz hgfb hok]
        exact hs

theorem wf_calloc {s : AState} {L : List Nat} (num nsize : Nat) (hw : WFc s L)
    (hsize : sizeofHeader + (num * nsize) % W < HALF) :
    ∃ L', WFc (calloc s num nsize).2 L' := by
  by_cases h0 : num = 0 ∨ nsize = 0
  · rw [calloc_zero_args h0]
    exact ⟨L, hw⟩
  · by_cases hchk : nsize ≠ ((num * nsize) % W) / num
    · rw [calloc_check_fail h0 hchk]
      exact ⟨L, hw⟩
    · cases hmal : malloc s ((num * nsize) % W) with
      | mk r s1 =>
        obtain ⟨L', hw'⟩ := wf_malloc ((num * nsize) % W) hw hsize
        rw [hmal] at hw'
        cases r with
        | none =>
          rw [calloc_alloc_none h0 hchk hmal]
          exact ⟨L', hw'⟩
        | some b0 =>
          rw [calloc_alloc_some h0 hchk hmal]
          exact ⟨L', wfc_set_data hw'⟩

theorem wf_realloc {s : AState} {L : List Nat} (b : Option Nat) (size : Nat) (hw : WFc s L)
    (hsize : sizeofHeader + size < HALF) :
    ∃ L', WFc (realloc s b size).2 L' := by
  cases b with
  | none =>
    rw [realloc_none]
    exact wf_malloc size hw hsize
  | some x =>
    by_cases hsz : size = 0
    · subst hsz
      rw [realloc_zero_arg]
      exact ⟨L, hw⟩
    · cases hget : memGet s.mem (x - sizeofHeader) with
      | none =>
        have hre : realloc s (some x) size = (none, s) := by
          simp only [realloc, if_neg hsz, hget]
        rw [hre]
        exact ⟨L, hw⟩
      | some h =>
        by_cases hle : size ≤ h.size
        · rw [realloc_keep hsz hget hle]
          exact ⟨L, hw⟩
        · cases hmal : malloc s size with
          | mk r s1 =>
            obtain ⟨L', hw'⟩ := wf_malloc size hw hsize
            rw [hmal] at hw'
            cases r with
            | none =>
              rw [realloc_move_fail hsz hget (Nat.not_le.mp hle) (by rw [hmal])]
              exact ⟨L, hw⟩
            | some ret =>
              have hx : (memGet s1.mem (x - sizeofHeader)).isSome := by
                have := malloc_mem_isSome size
                  (show (memGet s.mem (x - sizeofHeader)).isSome by rw [hget]; rfl)
                rwa [hmal] at this
              obtain ⟨h1, hh1⟩ := Option.isSome_iff_exists.mp hx
              rw [realloc_move_ok hsz hget (Nat.not_le.mp hle) hmal hh1]
              exact wf_free (wfc_set_data hw') (some x)

theorem reachable_wf {s : AState} (h : ReachableR s) : ∃ L, WFc s L := by
  induction h with
  | init base limit hbl hlim =>
    refine ⟨[], Chain.nil, List.nodup_nil, rfl, rfl, ?_, hbl, hlim⟩
    rw [contig_nil_iff]
    rfl
  | malloc_step s size hr hsize ih =>
    obtain ⟨L, hw⟩ := ih
    exact wf_malloc size hw hsize
  | free_step s b hr ih =>
    obtain ⟨L, hw⟩ := ih
    exact wf_free hw b
  | calloc_step s num nsize hr hsize ih =>
    obtain ⟨L, hw⟩ := ih
    exact wf_calloc num nsize hw hsize
  | realloc_step s b size hr hsize ih =>
    obtain ⟨L, hw⟩ := ih
    exact wf_realloc b size hw hsize

end Preservation

section RoundTripLemmas

theorem length_memSet_mem {m : Mem} {a : Nat} {h : Header} (ha : a ∈ keys m) :
    (memSet m a h).length = m.length := by
  induction m with
  | nil => simp [keys] at ha
  | cons p m ih =>
    obtain ⟨b, g⟩ := p
    by_cases hb : b = a
    · subst hb
      simp [memSet]
    · simp only [keys, List.map_cons, List.mem_cons] at ha
      rcases ha with ha | ha
      · exact absurd ha.symm hb
      · simp [memSet, hb, ih ha]

theorem length_memErase_mem {m : Mem} {a : Nat} (ha : a ∈ keys m) :
    (memErase m a).length + 1 = m.length := by
  induction m with
  | nil => simp [keys] at ha
  | cons p m ih =>
    obtain ⟨b, g⟩ := p
    by_cases hb : b = a
    · subst hb
      simp [memErase]
    · simp only [keys, List.map_cons, List.mem_cons] at ha
      rcases ha with ha | ha
      · exact absurd ha.symm hb
      · simp only [memErase, if_neg hb, List.length_cons]
        have := ih ha
        omega


theorem header_set_free_eta {h : Header} (hf : h.is_free = true) :
    ({ h with is_free := true } : Header) = h := by
  cases h
  simp only at hf
  rw [hf]

theorem header_set_next_none_eta {h : Header} (hf : h.next = none) :
    ({ h with next := none } : Header) = h := by
  cases h
  simp only at hf
  rw [hf]

theorem gfbAux_none {m : Mem} {size fuel : Nat} : gfbAux m size fuel none = none := by
  cases fuel <;> rfl

theorem grow_shrink_arith {brk base limit n : Nat}
    (hbrk : brk ≤ limit) (hlim : limit < HALF)
    (hok1 : (base : Int) ≤ (brk : Int) + toIntptr ((sizeofHeader + n) % W))
    (hok2 : (brk : Int) + toIntptr ((sizeofHeader + n) % W) ≤ (limit : Int)) :
    ((brk + sizeofHeader + n) % W
        = ((brk : Int) + toIntptr ((sizeofHeader + n) % W)).toNat) ∧
    toIntptr ((W - (n + sizeofHeader) % W) % W)
        = -(toIntptr ((sizeofHeader + n) % W)) := by
  have h32 : sizeofHeader = 32 := rfl
  have hWn : W = 18446744073709551616 := by decide
  have hHn : HALF = 9223372036854775808 := by decide
  simp only [toIntptr, h32, hWn, hHn] at hok1 hok2 ⊢
  constructor
  · by_cases hc1 : (32 + n) % 18446744073709551616 % 18446744073709551616
        < 9223372036854775808
    · rw [if_pos hc1] at hok1 hok2 ⊢
      omega
    · rw [if_neg hc1] at hok1 hok2 ⊢
      omega
  · by_cases hc1 : (32 + n) % 18446744073709551616 % 18446744073709551616
        < 9223372036854775808
    · rw [if_pos hc1] at hok1 hok2 ⊢
      by_cases hc2 : (18446744073709551616 - (n + 32) % 18446744073709551616)
          % 18446744073709551616 % 18446744073709551616 < 9223372036854775808
      · rw [if_pos hc2]
        omega
      · rw [if_neg hc2]
        omega
    · rw [if_neg hc1] at hok1 hok2 ⊢
      by_cases hc2 : (18446744073709551616 - (n + 32) % 18446744073709551616)
          % 18446744073709551616 % 18446744073709551616 < 9223372036854775808
      · rw [if_pos hc2]
        omega
      · rw [if_neg hc2]
        omega

theorem free_multi_ok2 {s : AState} {b : Nat} {h : Header} {m2 : Mem} {t2 : Option Nat}
    (hget : memGet s.mem (b - sizeofHeader) = some h)
    (hbrk : (b + h.size) % W = s.brk) (hht : ¬s.head = s.tail)
    (hcond : (s.heapBase : Int) ≤ (s.brk : Int) +
        toIntptr ((W - (h.size + sizeofHeader) % W) % W) ∧
      (s.brk : Int) + toIntptr ((W - (h.size + sizeofHeader) % W) % W)
        ≤ (s.brkLimit : Int))
    (hrep : tailRepair s.mem s.tail s.head (s.mem.length + 1) = (m2, t2)) :
    free s (some b) =
      { s with
        mem := memErase m2 (b - sizeofHeader),
        tail := t2,
        brk := ((s.brk : Int) +
          toIntptr ((W - (h.size + sizeofHeader) % W) % W)).toNat } := by
  rw [free_multi_ok hget hbrk hht hcond, hrep]

theorem malloc_grow_result {s2 : AState} {n : Nat} (hn : n ≠ 0)
    (hgfb : get_free_block s2 n = none) (hsmall : sizeofHeader + n < HALF)
    (hok : s2.brk + sizeofHeader + n ≤ s2.brkLimit) (hbase : s2.heapBase ≤ s2.brk) :
    (malloc s2 n).1 = some (s2.brk + sizeofHeader) := by
  have htot : (sizeofHeader + n) % W = sizeofHeader + n :=
    Nat.mod_eq_of_lt (Nat.lt_trans hsmall (by decide))
  have hd : toIntptr ((sizeofHeader + n) % W) = ((sizeofHeader + n : Nat) : Int) := by
    rw [htot]
    exact toIntptr_small hsmall
  have hok' : (s2.heapBase : Int) ≤ (s2.brk : Int) + toIntptr ((sizeofHeader + n) % W) ∧
      (s2.brk : Int) + toIntptr ((sizeofHeader + n) % W) ≤ (s2.brkLimit : Int) := by
    rw [hd]
    constructor <;> [omega; omega]
  rw [malloc_grow_ok hn hgfb hok']

theorem append_cons_eq_of_not_mem {a : Nat} :
    ∀ {l1 l2 r1 r2 : List Nat}, l1 ++ a :: r1 = l2 ++ a :: r2 → a ∉ l1 → a ∉ l2 →
      l1 = l2 ∧ r1 = r2 := by
  intro l1
  induction l1 with
  | nil =>
    intro l2 r1 r2 heq h1 h2
    cases l2 with
    | nil =>
      simp only [List.nil_append, List.cons.injEq] at heq
      exact ⟨rfl, heq.2⟩
    | cons y ys =>
      simp only [List.nil_append, List.cons_append, List.cons.injEq] at heq
      exfalso
      apply h2
      rw [← heq.1]
      exact List.mem_cons_self a ys
  | cons x xs ih =>
    intro l2 r1 r2 heq h1 h2
    cases l2 with
    | nil =>
      simp only [List.cons_append, List.nil_append, List.cons.injEq] at heq
      exfalso
      apply h1
      rw [heq.1]
      exact List.mem_cons_self a xs
    | cons y ys =>
      simp only [List.cons_append, List.cons.injEq] at heq
      have h1' : a ∉ xs := fun hc => h1 (List.mem_cons_of_mem x hc)
      have h2' : a ∉ ys := fun hc => h2 (List.mem_cons_of_mem y hc)
      obtain ⟨hl, hr⟩ := ih heq.2 h1' h2'
      exact ⟨by rw [heq.1, hl], hr⟩

theorem c9_reuse_nontrailing {s : AState} {L : List Nat} {n a : Nat} {h : Header}
    (hw : WFc s L) (hn : n ≠ 0)
    (hgfb : get_free_block s n = some a) (hget : memGet s.mem a = some h)
    (hnotlast : L.getLast? ≠ some a) :
    free (malloc s n).2 (malloc s n).1 = s := by
  obtain ⟨hchain, hndk, hkeys, htaileq, hcontig, hbl, hlim⟩ := hw
  obtain ⟨hd0, hgd0, hfree0, hle⟩ := get_free_block_sound hgfb
  rw [hget] at hgd0
  have hfree' : h.is_free = true := by
    rw [Option.some.inj hgd0]
    exact hfree0
  have htL : a ∈ L := by
    have := (memGet_isSome_iff_mem_keys s.mem a).mp (by rw [hget]; rfl)
    rwa [hkeys] at this
  obtain ⟨g, hg, hbase_le, hend_le⟩ := contig_mem_bounds hcontig htL
  rw [hget] at hg
  cases hg
  have hWbig : s.brk < W := by
    have h1 : s.brk < HALF := Nat.lt_of_le_of_lt hbl hlim
    have h2 : HALF < W := by decide
    omega
  have haddr : a + sizeofHeader - sizeofHeader = a := by omega
  have hne : (a + sizeofHeader + h.size) % W ≠ s.brk := by
    intro hcontra
    rw [Nat.mod_eq_of_lt (by omega)] at hcontra
    exact hnotlast (contig_end_eq_last hcontig htL hget (by omega))
  rw [malloc_reuse_eq hn hgfb hget]
  show free { s with mem := memSet s.mem a { h with is_free := false } }
    (some (a + sizeofHeader)) = s
  have hget1 : memGet (memSet s.mem a { h with is_free := false })
      (a + sizeofHeader - sizeofHeader) = some { h with is_free := false } := by
    rw [haddr]
    exact memGet_memSet_self _ _ _
  rw [free_mark_eq (s := { s with mem := memSet s.mem a { h with is_free := false } })
    hget1 hne]
  refine AState.ext ?_ rfl rfl rfl rfl rfl rfl
  show memSet (memSet s.mem a { h with is_free := false })
      (a + sizeofHeader - sizeofHeader)
      { { h with is_free := false } with is_free := true } = s.mem
  rw [haddr, memSet_memSet_self]
  have hcollapse : ({ { h with is_free := false } with is_free := true } : Header) = h :=
    header_set_free_eta hfree'
  rw [hcollapse]
  exact memSet_eq_of_memGet _ _ _ hget

theorem fits_eq_of_get {m : Mem} {size x : Nat} {h : Header}
    (hg : memGet m x = some h) :
    fits m size x = (h.is_free && decide (size ≤ h.size)) := by
  simp [fits, hg]

theorem c9_reuse_trailing {s : AState} {L : List Nat} {n a : Nat} {h : Header}
    (hw : WFc s L) (hn : n ≠ 0)
    (hgfb : get_free_block s n = some a) (hget : memGet s.mem a = some h)
    (hlast : L.getLast? = some a) :
    (malloc (free (malloc s n).2 (malloc s n).1) n).1 = some (a + sizeofHeader) := by
  obtain ⟨hchain, hndk, hkeys, htaileq, hcontig, hbl, hlim⟩ := hw
  obtain ⟨hd0, hgd0, hfree0, hle0⟩ := get_free_block_sound hgfb
  rw [hget] at hgd0
  have hle' : n ≤ h.size := by rw [Option.some.inj hgd0]; exact hle0
  have htL : a ∈ L := by
    have h0 := (memGet_isSome_iff_mem_keys s.mem a).mp (by rw [hget]; rfl)
    rwa [hkeys] at h0
  have hLne : L ≠ [] := by
    intro hc
    rw [hc] at hlast
    cases hlast
  obtain ⟨xg, g, hxlast, hgx, hend⟩ := contig_last_end hcontig hLne
  have hxa : xg = a := by
    rw [hxlast] at hlast
    exact Option.some.inj hlast
  rw [hxa] at hgx hend
  rw [hget] at hgx
  rw [← Option.some.inj hgx] at hend
  have hbrkHALF : s.brk < HALF := Nat.lt_of_le_of_lt hbl hlim
  have hWbig : s.brk < W := by
    have h2 : HALF < W := by decide
    omega
  have haddr : a + sizeofHeader - sizeofHeader = a := by omega
  obtain ⟨g2, hg2, hbase_le, hend_le⟩ := contig_mem_bounds hcontig htL
  have hdl : L.dropLast ++ [a] = L := List.dropLast_append_getLast? a hlast
  have htail : s.tail = some a := by rw [htaileq, hlast]
  have hakeys : a ∈ keys s.mem := by rw [hkeys]; exact htL
  have hlen1 : (memSet s.mem a { h with is_free := false }).length = s.mem.length :=
    length_memSet_mem hakeys
  have hLlen : L.length = s.mem.length := by
    rw [← hkeys]
    simp [keys]
  rw [malloc_reuse_eq hn hgfb hget]
  show (malloc (free { s with mem := memSet s.mem a { h with is_free := false } }
    (some (a + sizeofHeader))) n).1 = some (a + sizeofHeader)
  have hget1 : memGet (memSet s.mem a { h with is_free := false })
      (a + sizeofHeader - sizeofHeader) = some { h with is_free := false } := by
    rw [haddr]
    exact memGet_memSet_self _ _ _
  have hfire : (a + sizeofHeader + h.size) % W = s.brk := by
    rw [Nat.mod_eq_of_lt (show a + sizeofHeader + h.size < W by omega)]
    exact hend
  have hxle : h.size + sizeofHeader ≤ HALF := by omega
  have hd : toIntptr ((W - (h.size + sizeofHeader) % W) % W)
      = -((h.size + sizeofHeader : Nat) : Int) := toIntptr_shrink (by omega) hxle
  have hcond1 : (s.heapBase : Int) ≤ (s.brk : Int) +
      toIntptr ((W - (h.size + sizeofHeader) % W) % W) ∧
      (s.brk : Int) + toIntptr ((W - (h.size + sizeofHeader) % W) % W)
        ≤ (s.brkLimit : Int) := by
    rw [hd]
    constructor <;> omega
  have hnb : (((s.brk : Int) +
      toIntptr ((W - (h.size + sizeofHeader) % W) % W)).toNat) = a := by
    rw [hd]
    omega
  cases hDL : L.dropLast with
  | nil =>
    have hLa : L = [a] := by
      rw [← hdl, hDL]
      rfl
    have hhead : s.head = some a := by
      have h0 := chain_head hchain
      rw [hLa] at h0
      simpa using h0
    have hht1 : ({ s with mem := memSet s.mem a { h with is_free := false } } : AState).head
        = ({ s with mem := memSet s.mem a { h with is_free := false } } : AState).tail := by
      show s.head = s.tail
      rw [hhead, htail]
    rw [free_single_ok (s := { s with mem := memSet s.mem a { h with is_free := false } })
      hget1 hfire hht1 hcond1]
    refine Eq.trans (malloc_grow_result hn ?_ ?_ ?_ ?_) ?_
    · exact gfbAux_none
    · omega
    · show (((s.brk : Int) +
          toIntptr ((W - (h.size + sizeofHeader) % W) % W)).toNat)
          + sizeofHeader + n ≤ s.brkLimit
      rw [hnb]
      omega
    · show s.heapBase ≤ (((s.brk : Int) +
          toIntptr ((W - (h.size + sizeofHeader) % W) % W)).toNat)
      rw [hnb]
      exact hbase_le
    · show some ((((s.brk : Int) +
          toIntptr ((W - (h.size + sizeofHeader) % W) % W)).toNat) + sizeofHeader)
        = some (a + sizeofHeader)
      rw [hnb]
  | cons z zs =>
    have hlen2 : 2 ≤ L.length := by
      rw [← hdl, hDL]
      simp only [List.length_append, List.length_cons, List.length_singleton]
      omega
    obtain ⟨L2, p, hLsplit⟩ := getLast?_two_split hlast hlen2
    have hndL : L.Nodup := chain_nodup hchain
    have hassoc : (L2 ++ [p]) ++ [a] = L := by
      rw [hLsplit]
      simp
    have hanotin : a ∉ L2 ++ [p] := nodup_last_not_mem (by rw [hassoc]; exact hndL)
    have hpL : p ∈ L := by
      rw [hLsplit]
      simp
    have hpkeys : p ∈ keys s.mem := by rw [hkeys]; exact hpL
    obtain ⟨hp, hgp⟩ : ∃ hp, memGet s.mem p = some hp :=
      Option.isSome_iff_exists.mp ((memGet_isSome_iff_mem_keys s.mem p).mpr hpkeys)
    have hpa : p ≠ a := by
      intro hc
      apply hanotin
      rw [← hc]
      exact List.mem_append_right L2 (List.mem_singleton_self p)
    have hgp1 : memGet (memSet s.mem a { h with is_free := false }) p = some hp := by
      rw [memGet_memSet_ne _ _ _ _ hpa]
      exact hgp
    have hchain1 : Chain (memSet s.mem a { h with is_free := false }) s.head L :=
      chain_memSet_same_next { h with is_free := false } hget rfl hchain
    obtain ⟨w, hw2, hwmem⟩ : ∃ w, s.head = some w ∧ w ∈ L2 ++ [p] := by
      cases hL2c : L2 with
      | nil =>
        have hLpa : L = [p, a] := by
          rw [hLsplit, hL2c]
          rfl
        refine ⟨p, ?_, by simp [hL2c]⟩
        have h0 := chain_head hchain
        rw [hLpa] at h0
        simpa using h0
      | cons w ws =>
        have hLw : L = w :: (ws ++ [p, a]) := by
          rw [hLsplit, hL2c]
          rfl
        refine ⟨w, ?_, by simp [hL2c]⟩
        have h0 := chain_head hchain
        rw [hLw] at h0
        simpa using h0
    have hht1 : ¬({ s with mem := memSet s.mem a { h with is_free := false } } : AState).head
        = ({ s with mem := memSet s.mem a { h with is_free := false } } : AState).tail := by
      show ¬s.head = s.tail
      rw [hw2, htail]
      intro hc
      exact hanotin (Option.some.inj hc ▸ hwmem)
    have hrep : tailRepair
        ({ s with mem := memSet s.mem a { h with is_free := false } } : AState).mem
        ({ s with mem := memSet s.mem a { h with is_free := false } } : AState).tail
        ({ s with mem := memSet s.mem a { h with is_free := false } } : AState).head
        (({ s with mem := memSet s.mem a { h with is_free := false } } : AState).mem.length
          + 1) =
        (memSet (memSet s.mem a { h with is_free := false }) p { hp with next := none },
          some p) := by
      show tailRepair (memSet s.mem a { h with is_free := false }) s.tail s.head
        ((memSet s.mem a { h with is_free := false }).length + 1) = _
      rw [htail]
      exact tailRepair_spec hgp1 (hLsplit ▸ hchain1) (hLsplit ▸ hndL)
        (by rw [hlen1, ← hLlen, hLsplit]; exact Nat.lt_succ_self _)
    rw [free_multi_ok2 (s := { s with mem := memSet s.mem a { h with is_free := false } })
      hget1 hfire hht1 hcond1 hrep]
    have hfind : L.find? (fits s.mem n) = some a := by
      rw [← get_free_block_eq n ⟨hchain, hndk, hkeys, htaileq, hcontig, hbl, hlim⟩]
      exact hgfb
    rw [List.find?_eq_some] at hfind
    obtain ⟨hfits_a, as, bs, hdecomp, hprefix⟩ := hfind
    have hana : a ∉ as := by
      intro hmem
      have h0 := hprefix a hmem
      rw [hfits_a] at h0
      cases h0
    have heq2 : as ++ a :: bs = (L2 ++ [p]) ++ a :: [] := by
      rw [← hdecomp]
      exact hassoc.symm
    obtain ⟨has, hbs⟩ := append_cons_eq_of_not_mem heq2 hana hanotin
    have hprefix2 : ∀ x ∈ L2 ++ [p], (!fits s.mem n x) = true := has ▸ hprefix
    have hchain2 : Chain (memSet (memSet s.mem a { h with is_free := false }) p
        { hp with next := none }) s.head (L2 ++ [p]) :=
      chain_truncate hgp1 (hLsplit ▸ hchain1) (hLsplit ▸ hndL)
    have hchain3 : Chain (memErase (memSet (memSet s.mem a { h with is_free := false }) p
        { hp with next := none }) a) s.head (L2 ++ [p]) :=
      chain_memErase_notmem hanotin hchain2
    have hfitsF : ∀ x ∈ L2 ++ [p],
        ¬(fits (memErase (memSet (memSet s.mem a { h with is_free := false }) p
          { hp with next := none }) a) n x = true) := by
      intro x hx
      have hxa : x ≠ a := fun hc => hanotin (hc ▸ hx)
      have hxfalse : fits s.mem n x = false := by
        have h0 := hprefix2 x hx
        simpa using h0
      by_cases hxp : x = p
      · rw [hxp]
        rw [hxp] at hxfalse
        have hgx2 : memGet (memErase (memSet (memSet s.mem a
            { h with is_free := false }) p { hp with next := none }) a) p
            = some { hp with next := none } := by
          rw [memGet_memErase_ne _ _ _ hpa]
          exact memGet_memSet_self _ _ _
        intro hfit
        rw [fits_eq_of_get hgx2] at hfit
        have hfit2 : (hp.is_free && decide (n ≤ hp.size)) = true := hfit
        rw [fits_eq_of_get hgp] at hxfalse
        rw [hxfalse] at hfit2
        cases hfit2
      · have hgx2 : memGet (memErase (memSet (memSet s.mem a
            { h with is_free := false }) p { hp with next := none }) a) x
            = memGet s.mem x := by
          rw [memGet_memErase_ne _ _ _ hxa, memGet_memSet_ne _ _ _ _ hxp,
            memGet_memSet_ne _ _ _ _ hxa]
        intro hfit
        rw [fits, hgx2, ← fits] at hfit
        rw [hxfalse] at hfit
        cases hfit
    have hkeys1 : keys (memSet s.mem a { h with is_free := false }) = keys s.mem :=
      keys_memSet_mem _ _ _ hakeys
    have hpkeys1 : p ∈ keys (memSet s.mem a { h with is_free := false }) := by
      rw [hkeys1]
      exact hpkeys
    have hlen2m : (memSet (memSet s.mem a { h with is_free := false }) p
        { hp with next := none }).length = s.mem.length := by
      rw [length_memSet_mem hpkeys1, hlen1]
    have hakeys2 : a ∈ keys (memSet (memSet s.mem a { h with is_free := false }) p
        { hp with next := none }) := by
      rw [keys_memSet_mem _ _ _ hpkeys1, hkeys1]
      exact hakeys
    have hlen3 : (memErase (memSet (memSet s.mem a { h with is_free := false }) p
        { hp with next := none }) a).length + 1 = s.mem.length := by
      rw [length_memErase_mem hakeys2, hlen2m]
    have hlenL : (L2 ++ [p]).length + 1 = L.length := by
      rw [← hassoc]
      simp
    have hfind2 : (L2 ++ [p]).find? (fits (memErase (memSet (memSet s.mem a
        { h with is_free := false }) p { hp with next := none }) a) n) = none :=
      List.find?_eq_none.mpr hfitsF
    refine Eq.trans (malloc_grow_result hn ?_ ?_ ?_ ?_) ?_
    · show gfbAux
        (memErase (memSet (memSet s.mem a { h with is_free := false }) p
          { hp with next := none }) (a + sizeofHeader - sizeofHeader)) n
        ((memErase (memSet (memSet s.mem a { h with is_free := false }) p
          { hp with next := none }) (a + sizeofHeader - sizeofHeader)).length + 1)
        s.head = none
      rw [haddr]
      rw [gfbAux_chain hchain3 (by omega)]
      exact hfind2
    · omega
    · show (((s.brk : Int) +
          toIntptr ((W - (h.size + sizeofHeader) % W) % W)).toNat)
          + sizeofHeader + n ≤ s.brkLimit
      rw [hnb]
      omega
    · show s.heapBase ≤ (((s.brk : Int) +
          toIntptr ((W - (h.size + sizeofHeader) % W) % W)).toNat)
      rw [hnb]
      exact hbase_le
    · show some ((((s.brk : Int) +
          toIntptr ((W - (h.size + sizeofHeader) % W) % W)).toNat) + sizeofHeader)
        = some (a + sizeofHeader)
      rw [hnb]

theorem c9_grow_revert {s : AState} {L : List Nat} {n : Nat}
    (hw : WFc s L) (hn : n ≠ 0) (hgfb : get_free_block s n = none) :
    free (malloc s n).2 (malloc s n).1 = s := by
  obtain ⟨hchain, hndk, hkeys, htaileq, hcontig, hbl, hlim⟩ := hw
  by_cases hok : (s.heapBase : Int) ≤ (s.brk : Int) + toIntptr ((sizeofHeader + n) % W) ∧
      (s.brk : Int) + toIntptr ((sizeofHeader + n) % W) ≤ (s.brkLimit : Int)
  · obtain ⟨harith1, harith2⟩ := grow_shrink_arith hbl hlim hok.1 hok.2
    have hbase : s.heapBase ≤ s.brk := contig_mono hcontig
    have hnotin : s.brk ∉ L := by
      intro hmem
      obtain ⟨g, hg, hge, hle⟩ := contig_mem_bounds hcontig hmem
      have h32 : (0:Nat) < sizeofHeader := by decide
      omega
    have hfresh : memGet s.mem s.brk = none := by
      rw [memGet_eq_none_iff, hkeys]
      exact hnotin
    rw [malloc_grow_ok hn hgfb hok]
    set NB : Nat := ((s.brk : Int) + toIntptr ((sizeofHeader + n) % W)).toNat with hNB
    show free (mallocGrowState s n NB) (some (s.brk + sizeofHeader)) = s
    have haddr : s.brk + sizeofHeader - sizeofHeader = s.brk := by omega
    have hfire : (s.brk + sizeofHeader + n) % W = NB := harith1
    have hcondS : (s.heapBase : Int) ≤ (NB : Int) +
        toIntptr ((W - (n + sizeofHeader) % W) % W) ∧
        (NB : Int) + toIntptr ((W - (n + sizeofHeader) % W) % W) ≤ (s.brkLimit : Int) := by
      rw [harith2, hNB]
      constructor <;> omega
    cases htail : s.tail with
    | none =>
      have hLnil : L = [] := by
        have h0 : L.getLast? = none := by rw [← htaileq, htail]
        exact List.getLast?_eq_none_iff.mp h0
      have hhead : s.head = none := by
        have h0 := chain_head hchain
        rw [hLnil] at h0
        simpa using h0
      have hmemG : (mallocGrowState s n NB).mem =
          memSet s.mem s.brk { size := n, is_free := false, next := none } :=
        mallocGrowState_mem_none n NB htail
      have hget1 : memGet (mallocGrowState s n NB).mem
          (s.brk + sizeofHeader - sizeofHeader) =
          some { size := n, is_free := false, next := none } := by
        rw [haddr, hmemG]
        exact memGet_memSet_self _ _ _
      have hht : (mallocGrowState s n NB).head = (mallocGrowState s n NB).tail := by
        rw [mallocGrowState_head, mallocGrowState_tail, if_pos hhead]
      rw [free_single_ok hget1 hfire hht hcondS]
      refine AState.ext ?_ rfl ?_ ?_ ?_ rfl rfl
      · show memErase (mallocGrowState s n NB).mem (s.brk + sizeofHeader - sizeofHeader)
          = s.mem
        rw [haddr, hmemG]
        exact memErase_memSet_fresh _ _ _ hfresh
      · exact hhead.symm
      · exact htail.symm
      · show ((NB : Int) + toIntptr ((W - (n + sizeofHeader) % W) % W)).toNat = s.brk
        rw [harith2, hNB]
        omega
    | some t =>
      have hlastt : L.getLast? = some t := by rw [← htaileq, htail]
      have htmem : t ∈ L := by
        have hm : t ∈ L.getLast? := by rw [hlastt]; rfl
        obtain ⟨hne, heq⟩ := List.mem_getLast?_eq_getLast hm
        rw [heq]
        exact List.getLast_mem hne
      have htkeys : t ∈ keys s.mem := by rw [hkeys]; exact htmem
      obtain ⟨th, ht⟩ : ∃ th, memGet s.mem t = some th := by
        have h0 := (memGet_isSome_iff_mem_keys s.mem t).mpr htkeys
        exact Option.isSome_iff_exists.mp h0
      have htne : t ≠ s.brk := by
        intro hcontra
        rw [hcontra, hfresh] at ht
        cases ht
      have hbt : s.brk ≠ t := Ne.symm htne
      have hth1 : memGet (memSet s.mem s.brk { size := n, is_free := false, next := none }) t
          = some th := by
        rw [memGet_memSet_ne _ _ _ _ htne]
        exact ht
      have hmemG : (mallocGrowState s n NB).mem =
          memSet (memSet s.mem s.brk { size := n, is_free := false, next := none }) t
            { th with next := some s.brk } :=
        mallocGrowState_mem_some n NB htail hth1
      have hndL : L.Nodup := chain_nodup hchain
      have hchainG : Chain
          (memSet (memSet s.mem s.brk { size := n, is_free := false, next := none }) t
            { th with next := some s.brk })
          s.head (L ++ [s.brk]) :=
        chain_append_last { size := n, is_free := false, next := none }
          ht rfl hbt hchain hlastt hnotin hfresh
      obtain ⟨x, hx, hxL⟩ : ∃ x, s.head = some x ∧ x ∈ L := by
        cases hLc : L with
        | nil => rw [hLc] at hlastt; simp at hlastt
        | cons y ys =>
          exact ⟨y, chain_cons_head (hLc ▸ hchain), List.mem_cons_self y ys⟩
      have hheadne : ¬s.head = none := by rw [hx]; simp
      have hheadG : (mallocGrowState s n NB).head = s.head := by
        rw [mallocGrowState_head, if_neg hheadne]
      have hht : ¬(mallocGrowState s n NB).head = (mallocGrowState s n NB).tail := by
        rw [hheadG, mallocGrowState_tail, hx]
        intro hcontra
        have hxb : x = s.brk := Option.some.inj hcontra
        exact hnotin (hxb ▸ hxL)
      have hdl : L.dropLast ++ [t] = L := List.dropLast_append_getLast? t hlastt
      have hsplit : L ++ [s.brk] = L.dropLast ++ [t, s.brk] := by
        have h0 : L.dropLast ++ [t, s.brk] = (L.dropLast ++ [t]) ++ [s.brk] := by simp
        rw [h0, hdl]
      have hnodupG : (L ++ [s.brk]).Nodup := nodup_append_singleton hndL hnotin
      have hLlen : L.length = s.mem.length := by
        rw [← hkeys]
        simp [keys]
      have hfreshk : s.brk ∉ keys s.mem := by rw [hkeys]; exact hnotin
      have hlen1 : (memSet s.mem s.brk
          { size := n, is_free := false, next := none }).length = s.mem.length + 1 := by
        have h1 := keys_memSet_fresh s.mem s.brk
          { size := n, is_free := false, next := none } hfreshk
        have h2 : (memSet s.mem s.brk
            { size := n, is_free := false, next := none }).length
            = (keys (memSet s.mem s.brk
                { size := n, is_free := false, next := none })).length := by
          simp [keys]
        rw [h2, h1]
        simp [keys]
      have htin2 : t ∈ keys (memSet s.mem s.brk
          { size := n, is_free := false, next := none }) := by
        rw [keys_memSet_fresh _ _ _ hfreshk]
        exact List.mem_append_left _ htkeys
      have hlenG : (mallocGrowState s n NB).mem.length = s.mem.length + 1 := by
        rw [hmemG, length_memSet_mem htin2, hlen1]
      have hgetT : memGet
          (memSet (memSet s.mem s.brk { size := n, is_free := false, next := none }) t
            { th with next := some s.brk }) t
          = some { th with next := some s.brk } := memGet_memSet_self _ _ _
      have hchainG2 : Chain
          (memSet (memSet s.mem s.brk { size := n, is_free := false, next := none }) t
            { th with next := some s.brk })
          s.head (L.dropLast ++ [t, s.brk]) := hsplit ▸ hchainG
      have hnodupG2 : (L.dropLast ++ [t, s.brk]).Nodup := hsplit ▸ hnodupG
      have hrep : tailRepair (mallocGrowState s n NB).mem (mallocGrowState s n NB).tail
          (mallocGrowState s n NB).head ((mallocGrowState s n NB).mem.length + 1) =
          (memSet (mallocGrowState s n NB).mem t
            { ({ th with next := some s.brk } : Header) with next := none }, some t) := by
        rw [mallocGrowState_tail, hheadG, hlenG, hmemG]
        exact tailRepair_spec hgetT hchainG2 hnodupG2
          (by
            rw [← hsplit]
            simp only [List.length_append, List.length_singleton]
            omega)
      have hget1 : memGet (mallocGrowState s n NB).mem
          (s.brk + sizeofHeader - sizeofHeader) =
          some { size := n, is_free := false, next := none } := by
        rw [haddr, hmemG, memGet_memSet_ne _ _ _ _ hbt]
        exact memGet_memSet_self _ _ _
      rw [free_multi_ok2 hget1 hfire hht hcondS hrep]
      have hthn : th.next = none := chain_last_next hchain hlastt ht
      have hcollapse :
          ({ ({ th with next := some s.brk } : Header) with next := none } : Header)
          = th := header_set_next_none_eta hthn
      refine AState.ext ?_ rfl ?_ ?_ ?_ rfl rfl
      · show memErase
          (memSet (mallocGrowState s n NB).mem t
            { ({ th with next := some s.brk } : Header) with next := none })
          (s.brk + sizeofHeader - sizeofHeader) = s.mem
        rw [haddr, hcollapse, hmemG, memSet_memSet_self]
        rw [memSet_eq_of_memGet _ _ _ hth1]
        exact memErase_memSet_fresh _ _ _ hfresh
      · exact hheadG
      · exact htail.symm
      · show ((NB : Int) + toIntptr ((W - (n + sizeofHeader) % W) % W)).toNat = s.brk
        rw [harith2, hNB]
        omega
  · rw [malloc_grow_fail hn hgfb hok]
    rfl

end RoundTripLemmas

/-- Claim C8 counterexample.  Chain integrity is not preserved by every
allocate call: starting from a fresh heap, two `malloc(2^64 - 32)` calls
break it.  `sizeof(header_t) + size` wraps to 0 in `size_t`, so `sbrk(0)`
"succeeds" returning the unchanged break; the second call then writes the
new header over the first one and executes `tail->s.next = header` with
`tail == header`, producing a self-loop: afterwards `tail` is the block at
1000 and that block's `next` points back to 1000, so the chain from `head`
never terminates and `tail->next` is not null. -/
theorem claim_C8_counterexample :
    (malloc (malloc (initState 1000 2000) (W - 32)).2 (W - 32)).2.tail = some 1000 ∧
    memGet (malloc (malloc (initState 1000 2000) (W - 32)).2 (W - 32)).2.mem 1000 =
      some { size := W - 32, is_free := false, next := some 1000 } := by
  constructor <;> decide

/-- Claim C8 (amended): in every state reachable by allocator calls whose
request sizes keep `sizeof(header) + size` below `2^63` (no `size_t` wrap in
the `sbrk` argument; `zeroAllocate`'s computed total and `resize`'s new size
likewise), the chain from `head` visits a duplicate-free list of headers and
terminates at `tail`, whose `next` is null, and `head` is null iff the chain
is empty iff `tail` is null. -/
theorem claim_C8 (s : AState) (hr : ReachableR s) :
    ∃ L, Chain s.mem s.head L ∧ L.Nodup ∧ s.tail = L.getLast? ∧
      (∀ t th, s.tail = some t → memGet s.mem t = some th → th.next = none) ∧
      (s.head = none ↔ L = []) ∧ (s.tail = none ↔ L = []) := by
  obtain ⟨L, hchain, hndk, hkeys, htaileq, hcontig, hbl, hlim⟩ := reachable_wf hr
  refine ⟨L, hchain, chain_nodup hchain, htaileq, ?_, ?_, ?_⟩
  · intro t th htl hth
    have hlast : L.getLast? = some t := by rw [← htaileq, htl]
    exact chain_last_next hchain hlast hth
  · rw [chain_head hchain]
    cases L <;> simp
  · rw [htaileq, List.getLast?_eq_none_iff]

/-- Witness for C8 at the initial state, which is reachable by the empty
call sequence. -/
theorem claim_C8_witness :
    ∃ L, Chain (initState 1000 2000).mem (initState 1000 2000).head L ∧ L.Nodup ∧
      (initState 1000 2000).tail = L.getLast? ∧
      (∀ t th, (initState 1000 2000).tail = some t →
        memGet (initState 1000 2000).mem t = some th → th.next = none) ∧
      ((initState 1000 2000).head = none ↔ L = []) ∧
      ((initState 1000 2000).tail = none ↔ L = []) :=
  claim_C8 (initState 1000 2000) (ReachableR.init 1000 2000 (by decide) (by decide))

/-- Claim C2: freeing a capability whose payload ends exactly at the break
releases exactly `sizeof(header) + stored size` bytes back to the OS — the
break returns to the block's own start address, which is the boundary value
from immediately before that block's creation since blocks are only ever
appended at the break; a singleton chain resets `head = tail = null`, and in
a longer chain the node whose `next` pointed at the old tail becomes the new
tail with its `next` nulled. -/
theorem claim_C2 (s : AState) (L : List Nat) (b : Nat) (h : Header)
    (hw : WFc s L) (hb : sizeofHeader ≤ b)
    (hget : memGet s.mem (b - sizeofHeader) = some h)
    (hend : b + h.size = s.brk) :
    ((free s (some b)).brk = b - sizeofHeader ∧
      s.brk = (free s (some b)).brk + (sizeofHeader + h.size)) ∧
    (L = [b - sizeofHeader] →
      (free s (some b)).head = none ∧ (free s (some b)).tail = none) ∧
    (∀ L1 p, L = L1 ++ [p, b - sizeofHeader] →
      ∃ hp, memGet s.mem p = some hp ∧ hp.next = some (b - sizeofHeader) ∧
        (free s (some b)).tail = some p ∧
        memGet (free s (some b)).mem p = some { hp with next := none }) := by
  obtain ⟨hchain, hndk, hkeys, htaileq, hcontig, hbl, hlim⟩ := hw
  have h32 : sizeofHeader = 32 := rfl
  have htL : b - sizeofHeader ∈ L := by
    have := (memGet_isSome_iff_mem_keys s.mem (b - sizeofHeader)).mp (by rw [hget]; rfl)
    rwa [hkeys] at this
  obtain ⟨g, hg, hbase_le, hend_le⟩ := contig_mem_bounds hcontig htL
  rw [hget] at hg
  cases hg
  have hWbig : s.brk < W := by
    have h1 : s.brk < HALF := Nat.lt_of_le_of_lt hbl hlim
    have h2 : HALF < W := by decide
    omega
  have hbrkHALF : s.brk < HALF := Nat.lt_of_le_of_lt hbl hlim
  have hbrkmod : (b + h.size) % W = s.brk := by
    rw [hend, Nat.mod_eq_of_lt hWbig]
  have hxle : h.size + sizeofHeader ≤ HALF := by omega
  have hd : toIntptr ((W - (h.size + sizeofHeader) % W) % W)
      = -((h.size + sizeofHeader : Nat) : Int) := toIntptr_shrink (by omega) hxle
  have hcond : (s.heapBase : Int) ≤ (s.brk : Int) +
      toIntptr ((W - (h.size + sizeofHeader) % W) % W) ∧
      (s.brk : Int) + toIntptr ((W - (h.size + sizeofHeader) % W) % W)
        ≤ (s.brkLimit : Int) := by
    rw [hd]
    constructor <;> omega
  have hnb : (((s.brk : Int) +
      toIntptr ((W - (h.size + sizeofHeader) % W) % W)).toNat) = b - sizeofHeader := by
    rw [hd]
    omega
  have hbrkeq : (free s (some b)).brk = b - sizeofHeader := by
    by_cases hht : s.head = s.tail
    · rw [free_single_ok hget hbrkmod hht hcond]
      exact hnb
    · rw [free_multi_ok hget hbrkmod hht hcond]
      exact hnb
  refine ⟨⟨hbrkeq, by omega⟩, ?_, ?_⟩
  · intro hL
    have hhd : s.head = some (b - sizeofHeader) := by
      rw [chain_head hchain, hL]
      rfl
    have htl : s.tail = some (b - sizeofHeader) := by
      rw [htaileq, hL]
      rfl
    have hht : s.head = s.tail := by rw [hhd, htl]
    rw [free_single_ok hget hbrkmod hht hcond]
    exact ⟨rfl, rfl⟩
  · intro L1 p hL
    have hsplit : L1 ++ [p, b - sizeofHeader] = (L1 ++ [p]) ++ [b - sizeofHeader] := by
      simp
    have htl : s.tail = some (b - sizeofHeader) := by
      rw [htaileq, hL, hsplit]
      exact List.getLast?_concat _
    have hndL : (L1 ++ [p, b - sizeofHeader]).Nodup := by
      have := chain_nodup hchain
      rwa [hL] at this
    have htnotmem : b - sizeofHeader ∉ L1 ++ [p] := by
      apply nodup_last_not_mem
      rwa [hsplit] at hndL
    have hpt : p ≠ b - sizeofHeader := by
      intro hcontra
      exact htnotmem (hcontra ▸ List.mem_append_right L1 (List.mem_singleton_self p))
    have hpL : p ∈ L := by
      rw [hL]
      simp
    have hpsome : (memGet s.mem p).isSome := by
      rw [memGet_isSome_iff_mem_keys, hkeys]
      exact hpL
    obtain ⟨hp, hhp⟩ := Option.isSome_iff_exists.mp hpsome
    have hchainL : Chain s.mem s.head (L1 ++ [p, b - sizeofHeader]) := by
      rwa [hL] at hchain
    have hpnext : hp.next = some (b - sizeofHeader) := chain_pred_next hhp hchainL
    have hht : ¬s.head = s.tail := by
      rw [chain_head hchain, htl, hL]
      cases hL1 : L1 with
      | nil =>
        simp only [List.nil_append, List.head?_cons, ne_eq, Option.some.injEq]
        exact hpt
      | cons z zs =>
        simp only [List.cons_append, List.head?_cons, ne_eq, Option.some.injEq]
        intro hcontra
        have hzmem : z ∈ L1 ++ [p] := by
          rw [hL1]
          exact List.mem_cons_self z _
        rw [hcontra] at hzmem
        exact htnotmem hzmem
    have hlenL : L.length = s.mem.length := by
      rw [← hkeys]
      simp [keys]
    have hrepair : tailRepair s.mem s.tail s.head (s.mem.length + 1) =
        (memSet s.mem p { hp with next := none }, some p) := by
      rw [htl]
      refine tailRepair_spec hhp hchainL hndL ?_
      rw [← hL, hlenL]
      omega
    refine ⟨hp, hhp, hpnext, ?_, ?_⟩
    · rw [free_multi_ok hget hbrkmod hht hcond]
      simp only [hrepair]
    · rw [free_multi_ok hget hbrkmod hht hcond]
      simp only [hrepair]
      rw [memGet_memErase_ne _ _ _ hpt]
      exact memGet_memSet_self _ _ _

/-- Witness for C2: freeing the only block of the one-block state shrinks
the break from 1132 back to the block's start 1000 and empties the chain. -/
theorem claim_C2_witness :
    (sizeofHeader ≤ 1032 ∧ memGet sLive.mem (1032 - sizeofHeader) = some hdr100 ∧
      1032 + hdr100.size = sLive.brk) ∧
    ((free sLive (some 1032)).brk = 1032 - sizeofHeader ∧
      (free sLive (some 1032)).head = none ∧ (free sLive (some 1032)).tail = none) :=
  ⟨⟨by decide, by decide, by decide⟩, by
    have hc := claim_C2 sLive [1000] 1032 hdr100 sLive_wf (by decide) (by decide)
      (by decide)
    exact ⟨hc.1.1, (hc.2.1 (by decide)).1, (hc.2.1 (by decide)).2⟩⟩

/-- Claim C1 counterexample.  The claim asserts that whenever no fitting
free block exists, `malloc` initialises a fresh header, appends it and
returns its payload address, and that the amount requested from the heap
boundary is `sizeof(header) + size`.  Both parts fail on the code:
(a) in the concrete state `sTight` (one live block, OS ceiling 1140) no
block is free, yet `malloc 5` returns null and leaves the state untouched —
nothing is initialised or appended because `sbrk` fails; (b) from a fresh
heap, `malloc (2^64 - 1)` computes `sizeof(header_t) + size` in `size_t`
arithmetic, which wraps to 31, so the break moves from 1000 to 1031 — not
by `32 + (2^64 - 1)` bytes. -/
theorem claim_C1_counterexample :
    (memGet sTight.mem 1000 = some hdr100 ∧ sTight.mem = [(1000, hdr100)] ∧
      hdr100.is_free = false ∧ get_free_block sTight 5 = none ∧
      malloc sTight 5 = (none, sTight)) ∧
    ((malloc (initState 1000 3000) (W - 1)).2.brk = 1031 ∧
      (malloc (initState 1000 3000) (W - 1)).1 = some 1032 ∧
      1031 - 1000 ≠ sizeofHeader + (W - 1)) :=
  ⟨⟨by decide, by decide, by decide, by decide,
    malloc_grow_fail (by decide) (by decide) (by decide)⟩,
    by decide, by decide, by decide⟩

/-- Claim C1 (amended): for a well-formed state and `size > 0`, if the chain
has a block with `is_free` and stored size at least `size` then the scan
succeeds; on a successful scan `malloc` returns the payload of the first
fitting block in chain (= address) order, marks exactly that block not-free
and does not touch the break; if no block fits, it passes
`(sizeof(header) + size) mod 2^64` to `sbrk`, and on success initialises a
fresh header `(size, not-free, null)` at the old break, appends it at the
tail and returns its payload, while on `sbrk` failure it returns null with
the state unchanged. -/
theorem claim_C1 (s : AState) (L : List Nat) (size : Nat)
    (hw : WFc s L) (hsz : 0 < size) :
    ((∃ x ∈ L, fits s.mem size x = true) → ∃ a, get_free_block s size = some a) ∧
    (∀ a, get_free_block s size = some a →
      ∃ h L1 L2, memGet s.mem a = some h ∧ h.is_free = true ∧ size ≤ h.size ∧
        L = L1 ++ a :: L2 ∧ (∀ x ∈ L1, fits s.mem size x = false) ∧
        malloc s size =
          (some (a + sizeofHeader),
            { s with mem := memSet s.mem a { h with is_free := false } }) ∧
        (malloc s size).2.brk = s.brk) ∧
    (get_free_block s size = none →
      (((s.heapBase : Int) ≤ (s.brk : Int) + toIntptr ((sizeofHeader + size) % W) ∧
        (s.brk : Int) + toIntptr ((sizeofHeader + size) % W) ≤ (s.brkLimit : Int)) →
          malloc s size =
            (some (s.brk + sizeofHeader),
              mallocGrowState s size
                (((s.brk : Int) + toIntptr ((sizeofHeader + size) % W)).toNat)) ∧
          memGet (malloc s size).2.mem s.brk =
            some { size := size, is_free := false, next := none } ∧
          (malloc s size).2.tail = some s.brk ∧
          (∀ t, s.tail = some t → ∃ th, memGet s.mem t = some th ∧
            memGet (malloc s size).2.mem t = some { th with next := some s.brk })) ∧
      (¬((s.heapBase : Int) ≤ (s.brk : Int) + toIntptr ((sizeofHeader + size) % W) ∧
        (s.brk : Int) + toIntptr ((sizeofHeader + size) % W) ≤ (s.brkLimit : Int)) →
          malloc s size = (none, s))) := by
  have hszne : size ≠ 0 := Nat.pos_iff_ne_zero.mp hsz
  refine ⟨?_, ?_, ?_⟩
  · intro ⟨x, hxL, hfit⟩
    have := get_free_block_eq size hw
    rw [this]
    have hsome : (L.find? (fits s.mem size)).isSome :=
      List.find?_isSome.mpr ⟨x, hxL, hfit⟩
    exact Option.isSome_iff_exists.mp hsome
  · intro a hgfb
    have heq := get_free_block_eq size hw
    rw [heq] at hgfb
    obtain ⟨hfit, L1, L2, hdec, hprev⟩ := List.find?_eq_some.mp hgfb
    obtain ⟨h, hget, hfree, hle⟩ := fits_iff.mp hfit
    refine ⟨h, L1, L2, hget, hfree, hle, hdec, ?_, ?_, ?_⟩
    · intro x hx
      have := hprev x hx
      simpa using this
    · exact malloc_reuse_eq hszne (by rw [heq]; exact hgfb) hget
    · rw [malloc_reuse_eq hszne (by rw [heq]; exact hgfb) hget]
  · intro hgfb
    constructor
    · intro hok
      have hmal := malloc_grow_ok hszne hgfb hok
      refine ⟨hmal, ?_, ?_, ?_⟩
      · rw [hmal]
        simp only
        cases htail : s.tail with
        | none =>
          rw [mallocGrowState_mem_none _ _ htail]
          exact memGet_memSet_self _ _ _
        | some t =>
          obtain ⟨th, hth, htne⟩ := grow_tail_header hw htail
          have hm1t : memGet (memSet s.mem s.brk
              { size := size, is_free := false, next := none }) t = some th := by
            rw [memGet_memSet_ne s.mem s.brk t _ htne]
            exact hth
          rw [mallocGrowState_mem_some _ _ htail hm1t]
          rw [memGet_memSet_ne _ t s.brk _ (fun hh => htne hh.symm)]
          exact memGet_memSet_self _ _ _
      · rw [hmal]
        rfl
      · intro t htail
        obtain ⟨th, hth, htne⟩ := grow_tail_header hw htail
        have hm1t : memGet (memSet s.mem s.brk
            { size := size, is_free := false, next := none }) t = some th := by
          rw [memGet_memSet_ne s.mem s.brk t _ htne]
          exact hth
        refine ⟨th, hth, ?_⟩
        rw [hmal]
        simp only
        rw [mallocGrowState_mem_some _ _ htail hm1t]
        exact memGet_memSet_self _ _ _
    · intro hbad
      exact malloc_grow_fail hszne hgfb hbad

/-- Witness for C1: in the one-live-block state nothing is free, so
`malloc 5` takes the growth path and returns the payload of a fresh block
appended at the old break 1132. -/
theorem claim_C1_witness :
    (0 < 5 ∧ get_free_block sLive 5 = none) ∧
    (malloc sLive 5).1 = some (sLive.brk + sizeofHeader) ∧
    (malloc sLive 5).2.tail = some sLive.brk :=
  ⟨⟨by decide, by decide⟩,
    by
      have hth := ((claim_C1 sLive [1000] 5 sLive_wf (by decide)).2.2 (by decide)).1
        (by decide)
      exact ⟨by rw [hth.1], hth.2.2.1⟩⟩

/-- Claim C3: `calloc` returns null exactly when the count is zero, the
element size is zero, the `size_t` product overflows — detected precisely by
the division check, with the state left untouched and no allocation
attempted — or the underlying `malloc` fails; on success every byte of the
`num * nsize` payload is zero. -/
theorem claim_C3 (s : AState) (num nsize : Nat) :
    ((calloc s num nsize).1 = none ↔
      num = 0 ∨ nsize = 0 ∨ W ≤ num * nsize ∨ (malloc s ((num * nsize) % W)).1 = none) ∧
    (0 < num → 0 < nsize → ((nsize ≠ ((num * nsize) % W) / num) ↔ W ≤ num * nsize)) ∧
    ((num = 0 ∨ nsize = 0 ∨ W ≤ num * nsize) → calloc s num nsize = (none, s)) ∧
    (∀ b s', calloc s num nsize = (some b, s') → ∀ i, i < num * nsize →
      s'.data (b + i) = 0) := by
  by_cases h0 : num = 0 ∨ nsize = 0
  · have hc := calloc_zero_args (s := s) h0
    refine ⟨?_, ?_, fun _ => hc, ?_⟩
    · rw [hc]
      constructor
      · intro _
        tauto
      · intro _
        rfl
    · intro h1 h2
      rcases h0 with h | h <;> omega
    · intro b s' hcs
      rw [hc] at hcs
      simp at hcs
  · push_neg at h0
    have hnum : 0 < num := Nat.pos_of_ne_zero h0.1
    have hns : 0 < nsize := Nat.pos_of_ne_zero h0.2
    have hiff := overflow_check_iff hnum hns
    have h0' : ¬(num = 0 ∨ nsize = 0) := by tauto
    by_cases hov : W ≤ num * nsize
    · have hchk : nsize ≠ ((num * nsize) % W) / num := hiff.mpr hov
      have hc := calloc_check_fail (s := s) h0' hchk
      refine ⟨?_, fun _ _ => hiff, fun _ => hc, ?_⟩
      · rw [hc]
        constructor
        · intro _
          tauto
        · intro _
          rfl
      · intro b s' hcs
        rw [hc] at hcs
        simp at hcs
    · have hchk : ¬(nsize ≠ ((num * nsize) % W) / num) := fun hn => hov (hiff.mp hn)
      have hlt : num * nsize < W := Nat.not_le.mp hov
      have hszeq : (num * nsize) % W = num * nsize := Nat.mod_eq_of_lt hlt
      cases hmal : malloc s ((num * nsize) % W) with
      | mk r s1 =>
        cases r with
        | none =>
          have hc := calloc_alloc_none h0' hchk hmal
          refine ⟨?_, fun _ _ => hiff, ?_, ?_⟩
          · rw [hc]
            constructor
            · intro _
              right; right; right
              rfl
            · intro _
              rfl
          · intro hd
            rcases hd with h | h | h
            · exact absurd h h0.1
            · exact absurd h h0.2
            · exact absurd h hov
          · intro b s' hcs
            rw [hc] at hcs
            simp at hcs
        | some b0 =>
          have hc := calloc_alloc_some h0' hchk hmal
          refine ⟨?_, fun _ _ => hiff, ?_, ?_⟩
          · rw [hc]
            simp [hmal, h0.1, h0.2, hov]
          · intro hd
            rcases hd with h | h | h
            · exact absurd h h0.1
            · exact absurd h h0.2
            · exact absurd h hov
          · intro b s' hcs
            rw [hc] at hcs
            cases hcs
            intro i hi
            simp only [memsetBytes]
            rw [if_pos ⟨Nat.le_add_right _ _, by omega⟩]

/-- Claim C7: `resize` to a larger size with a successful internal
`allocate` copies exactly the old stored size's worth of payload bytes into
the new payload (bytes beyond that are untouched by the copy), deallocates
the old capability, and returns the new one, whose first old-size bytes
equal the pre-resize content. -/
theorem claim_C7 (s : AState) (L : List Nat) (b size ret : Nat) (h : Header) (s1 : AState)
    (hw : WFc s L) (hget : memGet s.mem (b - sizeofHeader) = some h)
    (hlive : h.is_free = false) (hlt : h.size < size)
    (hmal : malloc s size = (some ret, s1)) :
    realloc s (some b) size =
      (some ret, free { s1 with data := memcpyBytes s1.data ret b h.size } (some b)) ∧
    (∀ i, i < h.size → (realloc s (some b) size).2.data (ret + i) = s.data (b + i)) ∧
    (∀ x, ¬(ret ≤ x ∧ x < ret + h.size) → (realloc s (some b) size).2.data x = s.data x) := by
  have hsz : size ≠ 0 := by omega
  obtain ⟨h1, hre, hszeq, hfree1⟩ :=
    malloc_keeps_header size hw hget hlive
  rw [hmal] at hre
  have hmv := realloc_move_ok hsz hget hlt hmal hre
  rw [hszeq] at hmv
  have hdata : s1.data = s.data := by
    have := malloc_data_eq s size
    rw [hmal] at this
    exact this
  refine ⟨hmv, ?_, ?_⟩
  · intro i hi
    rw [hmv]
    simp only [free_data_eq]
    show memcpyBytes s1.data ret b h.size (ret + i) = s.data (b + i)
    simp only [memcpyBytes]
    rw [if_pos ⟨Nat.le_add_right _ _, by omega⟩]
    rw [hdata]
    congr 1
    omega
  · intro x hx
    rw [hmv]
    simp only [free_data_eq]
    show memcpyBytes s1.data ret b h.size x = s.data x
    simp only [memcpyBytes]
    rw [if_neg hx, hdata]

/-- Witness for C7: in the one-live-block state, resizing the 100-byte
block at payload 1032 to 150 bytes moves it to the fresh payload 1164 and
its first 100 bytes equal the old contents. -/
theorem claim_C7_witness :
    (hdr100.size < 150 ∧ (malloc sLive 150).1 = some 1164) ∧
    (∀ i, i < hdr100.size →
      (realloc sLive (some 1032) 150).2.data (1164 + i) = sLive.data (1032 + i)) :=
  ⟨⟨by decide, by decide⟩,
    (claim_C7 sLive [1000] 1032 150 1164 hdr100 (malloc sLive 150).2 sLive_wf
      (by decide) (by decide) (by decide)
      (by
        have h1 : (malloc sLive 150).1 = some 1164 := by decide
        calc malloc sLive 150 = ((malloc sLive 150).1, (malloc sLive 150).2) := rfl
          _ = (some 1164, (malloc sLive 150).2) := by rw [h1])).2.1⟩

/-- Claim C10: `realloc(p, 0)` delegates to `malloc(0)` and so returns null
while leaving the state — in particular `p`'s header, still marked in-use —
completely unchanged; and no `malloc` call on any state in which `p`'s
header is still marked in-use can ever hand out `p` again, so a caller
treating the null return as an implicit `free` leaks the block. -/
theorem claim_C10 (s : AState) (L : List Nat) (b : Nat) (h : Header)
    (_hw : WFc s L) (hget : memGet s.mem (b - sizeofHeader) = some h)
    (_hlive : h.is_free = false) :
    realloc s (some b) 0 = (none, s) ∧
    memGet (realloc s (some b) 0).2.mem (b - sizeofHeader) = some h ∧
    (∀ (s' : AState) (L' : List Nat) (h' : Header) (n : Nat), WFc s' L' →
      memGet s'.mem (b - sizeofHeader) = some h' → h'.is_free = false →
      (malloc s' n).1 ≠ some b) := by
  have hmain := realloc_zero_arg s b
  refine ⟨hmain, by rw [hmain]; exact hget, ?_⟩
  intro s' L' h' n hw' hget' hlive' hcontra
  by_cases hsz : n = 0
  · subst hsz
    rw [malloc_zero] at hcontra
    simp at hcontra
  · cases hgfb : get_free_block s' n with
    | some a =>
      obtain ⟨hd, hgd, hdfree, _⟩ := get_free_block_sound hgfb
      rw [malloc_reuse_eq hsz hgfb hgd] at hcontra
      simp only [Option.some.injEq] at hcontra
      have hab : a = b - sizeofHeader := by
        have h32 : sizeofHeader = 32 := rfl
        omega
      rw [hab, hget'] at hgd
      cases hgd
      rw [hlive'] at hdfree
      cases hdfree
    | none =>
      by_cases hok : (s'.heapBase : Int) ≤ (s'.brk : Int) + toIntptr ((sizeofHeader + n) % W) ∧
          (s'.brk : Int) + toIntptr ((sizeofHeader + n) % W) ≤ (s'.brkLimit : Int)
      · rw [malloc_grow_ok hsz hgfb hok] at hcontra
        simp only [Option.some.injEq] at hcontra
        have hmemL : b - sizeofHeader ∈ L' := by
          have := (memGet_isSome_iff_mem_keys s'.mem (b - sizeofHeader)).mp
            (by rw [hget']; rfl)
          rwa [hw'.2.2.1] at this
        obtain ⟨g, _, _, hend⟩ := contig_mem_bounds hw'.2.2.2.2.1 hmemL
        have h32 : (0 : Nat) < sizeofHeader := by decide
        omega
      · rw [malloc_grow_fail hsz hgfb hok] at hcontra
        simp at hcontra

/-- Witness for C10: in the one-live-block state, `realloc(1032, 0)` returns
null and changes nothing, and a subsequent `malloc(50)` cannot return the
still-live payload 1032. -/
theorem claim_C10_witness :
    (memGet sLive.mem (1032 - sizeofHeader) = some hdr100 ∧ hdr100.is_free = false) ∧
    realloc sLive (some 1032) 0 = (none, sLive) ∧
    (malloc sLive 50).1 ≠ some 1032 :=
  ⟨⟨by decide, by decide⟩,
    (claim_C10 sLive [1000] 1032 hdr100 sLive_wf (by decide) (by decide)).1,
    (claim_C10 sLive [1000] 1032 hdr100 sLive_wf (by decide) (by decide)).2.2
      sLive [1000] hdr100 50 sLive_wf (by decide) (by decide)⟩

/-- Claim C9: for every size `n > 0` and well-formed chain state,
`allocate(n)` followed immediately by `deallocate` of its result and then
`allocate(n)` again returns the identical address.  When the first call
reuses the just-freed tail block or grows the heap, the deallocation shrinks
the break back and the second call re-grows at the same spot; when the
chain has other entries before the reused block, the deallocation merely
re-marks it free and first-fit finds it again. -/
theorem claim_C9 (s : AState) (L : List Nat) (n : Nat) (hw : WFc s L) (hn : 0 < n) :
    (malloc (free (malloc s n).2 (malloc s n).1) n).1 = (malloc s n).1 := by
  have hn' : n ≠ 0 := Nat.pos_iff_ne_zero.mp hn
  cases hgfb : get_free_block s n with
  | none =>
    rw [c9_grow_revert hw hn' hgfb]
  | some a =>
    obtain ⟨h0, hget, _, _⟩ := get_free_block_sound hgfb
    by_cases hlast : L.getLast? = some a
    · rw [c9_reuse_trailing hw hn' hgfb hget hlast]
      rw [malloc_reuse_eq hn' hgfb hget]
    · rw [c9_reuse_nontrailing hw hn' hgfb hget hlast]

/-- Witness for C9: in the one-live-block state, `malloc(7)` grows the heap
handing out payload 1164; freeing it shrinks the heap back, and a second
`malloc(7)` returns 1164 again. -/
theorem claim_C9_witness :
    (malloc (free (malloc sLive 7).2 (malloc sLive 7).1) 7).1 = (malloc sLive 7).1 ∧
    (malloc sLive 7).1 = some 1164 :=
  ⟨claim_C9 sLive [1000] 7 sLive_wf (by decide), by decide⟩

end MemAlloc
